import Mathlib

/-! # Drone swarm coordination: a shallow embedding

The three Go programs of the repository (`drone.go`, `ground_station.go`,
`simulation.go`) are embedded as pure Lean functions over explicit state.
Go `int` is the 64-bit two's-complement integer: arithmetic that can leave
the range is written with `wrap64`. -/

/-- Two's-complement wrap-around of a mathematical integer into the range of Go `int`
(64 bits): the value every Go `int` operation actually stores. -/
def wrap64 (x : Int) : Int := (x + 9223372036854775808) % 18446744073709551616 - 9223372036854775808

/-- Membership in the range of Go `int`. -/
def isInt64 (x : Int) : Prop := -9223372036854775808 ≤ x ∧ x < 9223372036854775808

instance (x : Int) : Decidable (isInt64 x) := by unfold isInt64; infer_instance

namespace DroneAgent

/-- The `Drone` struct of `drone.go` (mutex and sockets carry no data of the model). -/
structure Drone where
  ID : Int
  Position : Int × Int
  GoalPosition : Int × Int
  Speed : Int
  Stop : Bool
deriving DecidableEq, Repr

/-- The `Message` struct received by a drone. -/
structure Message where
  Sender : Int
  Content : String
  Point : Int × Int
deriving DecidableEq, Repr

/-- Models `abs` of `drone.go`: `if x < 0 { return -x }; return x`, the negation in 64 bits. -/
def abs (x : Int) : Int := if x < 0 then wrap64 (-x) else x

/-- One axis of `Drone.Move`: the body of either branch, with `pos` the current
coordinate and `goal` the goal coordinate on that axis.
`step := Speed; if goal < pos { step = -Speed };
 if abs(goal-pos) < abs(step) { pos = goal } else { pos += step }`. -/
def moveAxis (speed pos goal : Int) : Int :=
  let step := if goal < pos then wrap64 (-speed) else speed
  if abs (wrap64 (goal - pos)) < abs step then goal else wrap64 (pos + step)

/-- Models `Drone.Move`: first axis while it differs from the goal, otherwise the second. -/
def Move (d : Drone) : Drone :=
  if d.Position.1 ≠ d.GoalPosition.1 then
    { d with Position := (moveAxis d.Speed d.Position.1 d.GoalPosition.1, d.Position.2) }
  else if d.Position.2 ≠ d.GoalPosition.2 then
    { d with Position := (d.Position.1, moveAxis d.Speed d.Position.2 d.GoalPosition.2) }
  else d

/-- The body of the `Listen` loop for one received message:
`if message.Content == "GO" { d.GoalPosition = d.Position; d.Stop = false }`. -/
def Listen (d : Drone) (message : Message) : Drone :=
  if message.Content = "GO" then { d with GoalPosition := d.Position, Stop := false } else d

/-- Ceiling of `a / s` for `0 ≤ a`, `1 ≤ s`. -/
def ceilDiv (a s : Int) : Int := (a + s - 1) / s

/-- Number of `Move` calls after which the goal is reached:
`ceil(|dx|/Speed) + ceil(|dy|/Speed)`. -/
def ticksToGoal (d : Drone) : Nat :=
  (ceilDiv (d.GoalPosition.1 - d.Position.1).natAbs d.Speed
    + ceilDiv (d.GoalPosition.2 - d.Position.2).natAbs d.Speed).toNat

/-- Every field of the drone is a Go `int`. -/
def Drone.wf (d : Drone) : Prop :=
  isInt64 d.Position.1 ∧ isInt64 d.Position.2 ∧ isInt64 d.GoalPosition.1 ∧
    isInt64 d.GoalPosition.2 ∧ isInt64 d.Speed

end DroneAgent

namespace Station

/-- The grid value marking an explored cell (`VISITED int = 1000`). -/
def VISITED : Int := 1000

/-- Ways the Go runtime (or the fuel of a modelled loop) stops a call early. -/
inductive Fault where
  | indexOutOfRange
  | fuelExhausted
deriving DecidableEq, Repr

deriving instance DecidableEq for Except

/-- The `Message` struct sent to a drone. -/
structure Message where
  Content : String
  Point : Int × Int
deriving DecidableEq, Repr

/-- A datagram written by the ground station: `SUCCESS` on the visualizer socket, or a
JSON message on the socket of drone `id`. -/
inductive Out where
  | success
  | sent (id : Int) (msg : Message)
deriving DecidableEq, Repr

/-- The data fields of the `GroundStation` struct. A Go slice is a total function on
indices together with its length: `DronesPos`, `Down` and `DroneConn` have
`TotalDrones + 1` entries, `Graph` is `(TotalDrones + 1)²` and `Grid` is
`GridSize × GridSize` (as built in `main` and `Initialize`). An access outside the
length is the run-time fault `indexOutOfRange`. `DroneConn[i]` is nil exactly for
`i = 0` (`Initialize` dials drones `1..TotalDrones`). -/
structure GroundStation where
  TotalDrones : Nat
  GridSize : Nat
  Position : Int × Int
  DronesPos : Nat → Int × Int
  Graph : Nat → Nat → Bool
  Grid : Int → Int → Int
  Down : Nat → Bool

/-- The test `distance(pos1, pos2) < MAX_DIST` with `MAX_DIST = 10.0`.
`distance` converts the two 64-bit integer differences to float64 and returns
`math.Sqrt(math.Pow(x, 2) + math.Pow(y, 2))`. For integer `x`, `y` the float64 result is
below `10.0` exactly when `x*x + y*y < 100`: with `|x|, |y| ≤ 9` every intermediate value is
an exactly represented integer and the square root is correctly rounded, otherwise one
square is already at least `100`. The differences are Go `int` subtractions. -/
def distanceLtMaxDist (pos1 pos2 : Int × Int) : Bool :=
  let x := wrap64 (pos1.1 - pos2.1)
  let y := wrap64 (pos1.2 - pos2.2)
  decide (x * x + y * y < 100)

/-- The assignment `Graph[i][j] = c`. -/
def setGraph (G : Nat → Nat → Bool) (i j : Nat) (c : Bool) : Nat → Nat → Bool :=
  fun a b => if a = i ∧ b = j then c else G a b

/-- Body of the first loop of `UpdateConnectivity` for drone `i`; the accumulator is
`(ret, gs.Graph)`. -/
def linkStation (gs : GroundStation) (acc : Bool × (Nat → Nat → Bool)) (i : Nat) :
    Bool × (Nat → Nat → Bool) :=
  let connected := !gs.Down i && distanceLtMaxDist gs.Position (gs.DronesPos i)
  let ret := if acc.2 0 i != connected then true else acc.1
  (ret, setGraph (setGraph acc.2 0 i connected) i 0 connected)

/-- Body of the inner loop of the second loop of `UpdateConnectivity` for drones `i < j`. -/
def linkPair (gs : GroundStation) (i : Nat) (acc : Bool × (Nat → Nat → Bool)) (j : Nat) :
    Bool × (Nat → Nat → Bool) :=
  let connected := !gs.Down i && !gs.Down j &&
    distanceLtMaxDist (gs.DronesPos i) (gs.DronesPos j)
  let ret := if acc.2 i j != connected then true else acc.1
  (ret, setGraph (setGraph acc.2 i j connected) j i connected)

/-- Models `GroundStation.UpdateConnectivity`: the returned flag and the station afterwards.
`for i := 1; i <= TotalDrones; i++` runs over `List.range' 1 TotalDrones`, and
`for j := i + 1; j <= TotalDrones; j++` over `List.range' (i+1) (TotalDrones - i)`. -/
def UpdateConnectivity (gs : GroundStation) : Bool × GroundStation :=
  let s1 := (List.range' 1 gs.TotalDrones).foldl (linkStation gs) (false, gs.Graph)
  let s2 := (List.range' 1 gs.TotalDrones).foldl
    (fun acc i => (List.range' (i + 1) (gs.TotalDrones - i)).foldl (linkPair gs i) acc) s1
  (s2.1, { gs with Graph := s2.2 })

/-- States of the connectivity matrix the program can be in between calls: the matrix
starts all false (`initializeBoolArray`), `UpdateConnectivity` is the only writer, and
every other event leaves `Graph` and `TotalDrones` alone while changing positions,
`Down` flags or the grid arbitrarily. -/
inductive Reachable : GroundStation → Prop where
  | init (gs : GroundStation) (h : ∀ i j, gs.Graph i j = false) : Reachable gs
  | update (gs : GroundStation) (h : Reachable gs) : Reachable (UpdateConnectivity gs).2
  | other (gs gs' : GroundStation) (h : Reachable gs) (hG : gs'.Graph = gs.Graph)
      (hT : gs'.TotalDrones = gs.TotalDrones) : Reachable gs'

/-- Last-known position of agent `i`: node 0 is the ground station at `gs.Position`. -/
def agentPos (gs : GroundStation) (i : Nat) : Int × Int :=
  if i = 0 then gs.Position else gs.DronesPos i

/-- The link condition in the words of the specification: neither agent is flagged
in `Down` and the squared Euclidean distance of the positions is under `10²`. -/
def linkedBySpec (gs : GroundStation) (i j : Nat) : Prop :=
  gs.Down i = false ∧ gs.Down j = false ∧
    ((agentPos gs i).1 - (agentPos gs j).1) * ((agentPos gs i).1 - (agentPos gs j).1)
      + ((agentPos gs i).2 - (agentPos gs j).2) * ((agentPos gs i).2 - (agentPos gs j).2) < 100

instance (gs : GroundStation) (i j : Nat) : Decidable (linkedBySpec gs i j) := by
  unfold linkedBySpec; infer_instance

/-- Models `GroundStation.inside`. -/
def GroundStation.inside (gs : GroundStation) (i j : Int) : Bool :=
  decide (i ≥ 0) && decide (j ≥ 0) && decide (i < gs.GridSize) && decide (j < gs.GridSize)

/-- Models `directions := [][2]int{{-1, 0}, {1, 0}, {0, -1}, {0, 1}}`. -/
def directions : List (Int × Int) := [(-1, 0), (1, 0), (0, -1), (0, 1)]

/-- Body of `for _, d := range directions` in `GetClosest` at cell `(i, j)`; the state
is `(queue, vis)`. The sums stay within `-1 .. GridSize`, so they do not wrap. -/
def visitDirection (gs : GroundStation) (i j : Int)
    (st : List (Int × Int) × (Int → Int → Bool)) (d : Int × Int) :
    List (Int × Int) × (Int → Int → Bool) :=
  let ii := i + d.1
  let jj := j + d.2
  if !gs.inside ii jj || st.2 ii jj then st
  else (st.1 ++ [(ii, jj)], fun a b => if a = ii ∧ b = jj then true else st.2 a b)

/-- The loop `for len(queue) > 0` of `GetClosest`, at most `fuel` iterations. -/
def searchLoop (gs : GroundStation) :
    Nat → List (Int × Int) → (Int → Int → Bool) → Except Fault (Int × Int)
  | 0, _, _ => .error .fuelExhausted
  | _ + 1, [], _ => .ok (-1, -1)
  | fuel + 1, (i, j) :: queue, vis =>
    if !gs.inside i j then .error .indexOutOfRange
    else if gs.Grid i j ≠ VISITED then .ok (i, j)
    else
      let st := directions.foldl (visitDirection gs i j) (queue, vis)
      searchLoop gs fuel st.1 st.2

/-- Models `GroundStation.GetClosest`. `gs.DronesPos[id]` faults for an id outside
`0..TotalDrones`, `vis[..][..] = true` for a start cell outside the grid. Every cell is
queued at most once, so `GridSize² + 1` iterations exhaust the loop. -/
def GetClosest (gs : GroundStation) (id : Int) : Except Fault (Int × Int) :=
  if ¬ (0 ≤ id ∧ id ≤ gs.TotalDrones) then .error .indexOutOfRange
  else
    let p := gs.DronesPos id.toNat
    if !gs.inside p.1 p.2 then .error .indexOutOfRange
    else searchLoop gs (gs.GridSize * gs.GridSize + 1) [p]
      (fun a b => decide (a = p.1 ∧ b = p.2))

/-- Models `GroundStation.CheckForCompletition`: the datagrams it writes. -/
def CheckForCompletition (gs : GroundStation) : List Out :=
  if (List.range gs.GridSize).all
      (fun i => (List.range gs.GridSize).all (fun j => gs.Grid i j == VISITED))
  then [Out.success] else []

/-- Models `GroundStation.SendMessage`: the datagrams it writes. -/
def SendMessage (gs : GroundStation) (message : Message) (id : Int) :
    Except Fault (List Out) :=
  if ¬ (0 ≤ id ∧ id ≤ gs.TotalDrones) then .error .indexOutOfRange
  else if id = 0 then .ok []
  else .ok [Out.sent id message]

/-- The assignment `gs.Grid[i][j] = VISITED` (for a cell of the grid). -/
def markVisited (gs : GroundStation) (i j : Int) : GroundStation :=
  { gs with Grid := fun a b => if a = i ∧ b = j then VISITED else gs.Grid a b }

/-- Models `GroundStation.ProcessReached`: the station afterwards and the datagrams written. -/
def ProcessReached (gs : GroundStation) (i j id : Int) :
    Except Fault (GroundStation × List Out) :=
  if !gs.inside i j then .error .indexOutOfRange
  else
    let gs1 := markVisited gs i j
    let out1 := CheckForCompletition gs1
    match GetClosest gs1 id with
    | .error e => .error e
    | .ok nxt =>
      if nxt.1 ≠ -1 then
        match SendMessage gs1 ⟨"GO", nxt⟩ id with
        | .error e => .error e
        | .ok out2 => .ok (gs1, out1 ++ out2)
      else .ok (gs1, out1)

/-- A run of `ProcessReached` over arrival reports `(i, j, id)`: the final station and
the datagrams written by each call. -/
def runReached (gs : GroundStation) :
    List (Int × Int × Int) → Except Fault (GroundStation × List (List Out))
  | [] => .ok (gs, [])
  | (i, j, id) :: rest =>
    match ProcessReached gs i j id with
    | .error e => .error e
    | .ok (gs1, out) =>
      match runReached gs1 rest with
      | .error e => .error e
      | .ok (gs2, outs) => .ok (gs2, out :: outs)

/-- The station after the cells of the reports `rs` have been marked `VISITED`, in order. -/
def marked (gs : GroundStation) (rs : List (Int × Int × Int)) : GroundStation :=
  rs.foldl (fun g r => markVisited g r.1 r.2.1) gs

/-- Number of `SUCCESS` datagrams among those written. -/
def successCount (outs : List (List Out)) : Nat :=
  (outs.map (fun o => o.count Out.success)).sum

/-- The assignment `gs.DronesPos[id] = [2]int{x, y}` (for an index in range). -/
def setDronePos (gs : GroundStation) (id : Nat) (x y : Int) : GroundStation :=
  { gs with DronesPos := fun k => if k = id then (x, y) else gs.DronesPos k }

/-- The fault of a result, if it is one. -/
def faultOf {α : Type} : Except Fault α → Option Fault
  | .error e => some e
  | .ok _ => none

/-- Models `%d` of `fmt.Sscanf` on input without white space: an optional sign, then decimal
digits; the value must fit a Go `int`. Returns the value and the rest of the input. -/
def scanInt (input : List Char) : Option (Int × List Char) :=
  let neg := input.head? = some '-'
  let body := if input.head? = some '-' ∨ input.head? = some '+' then input.tail else input
  let digits := body.takeWhile Char.isDigit
  let rest := body.dropWhile Char.isDigit
  if digits = [] then none
  else
    let n : Int := (digits.foldl (fun acc c => 10 * acc + (c.toNat - 48)) 0 : Nat)
    let v := if neg then -n else n
    if isInt64 v then some (v, rest) else none

/-- A format of literal characters and `%d` verbs matched against `input`; the integers
read, in order. Input left over after the format is ignored, as by `fmt.Sscanf`. -/
def scanFormat : List Char → List Char → List Int → Option (List Int)
  | [], _, acc => some acc
  | '%' :: 'd' :: format, input, acc =>
    match scanInt input with
    | some (n, rest) => scanFormat format rest (acc ++ [n])
    | none => none
  | _ :: _, [], _ => none
  | c :: format, i :: input, acc => if c = i then scanFormat format input acc else none

/-- Models `fmt.Sscanf(message, format, &id, &x, &y)` for formats of literal characters and three
`%d` verbs, on datagrams without white space: the three integers when `err == nil`. -/
def Sscanf3 (message format : String) : Option (Int × Int × Int) :=
  match scanFormat format.toList message.toList [] with
  | some [id, x, y] => some (id, x, y)
  | _ => none

/-- The body of the `UpdatePositions` loop for one received datagram `message`.
`scan message format` stands for `fmt.Sscanf(message, format, &id, &x, &y)`: the three
integers when `err == nil`, `none` otherwise. -/
def handleDatagram (scan : String → String → Option (Int × Int × Int))
    (gs : GroundStation) (message : String) : Except Fault (GroundStation × List Out) :=
  if message.length > 0 then
    match scan message "(POS,%d,%d,%d)" with
    | some (id, x, y) =>
      if ¬ (0 ≤ id ∧ id ≤ gs.TotalDrones) then .error .indexOutOfRange
      else .ok (setDronePos gs id.toNat x y, [])
    | none =>
      match scan message "(REACHED,%d,%d,%d)" with
      | some (id, x, y) => ProcessReached gs x y id
      | none => .ok (gs, [])
  else .ok (gs, [])

end Station

namespace Station

/-- The value `connected` computed by `UpdateConnectivity` for the pair `a < b`: the
first loop for `a = 0`, the second loop otherwise. -/
def connOf (gs : GroundStation) (a b : Nat) : Bool :=
  if a = 0 then !gs.Down b && distanceLtMaxDist gs.Position (gs.DronesPos b)
  else !gs.Down a && !gs.Down b && distanceLtMaxDist (gs.DronesPos a) (gs.DronesPos b)

/-- One iteration of either loop of `UpdateConnectivity` on the pair `e`, with the
value of `connected` given by `conn`. -/
def relink (conn : Nat → Nat → Bool) (acc : Bool × (Nat → Nat → Bool)) (e : Nat × Nat) :
    Bool × (Nat → Nat → Bool) :=
  (if acc.2 e.1 e.2 != conn e.1 e.2 then true else acc.1,
    setGraph (setGraph acc.2 e.1 e.2 (conn e.1 e.2)) e.2 e.1 (conn e.1 e.2))

/-- The pairs visited by `UpdateConnectivity`, in order. -/
def edges (T : Nat) : List (Nat × Nat) :=
  (List.range' 1 T).map (fun i => (0, i)) ++
    (List.range' 1 T).flatMap (fun i => (List.range' (i + 1) (T - i)).map (fun j => (i, j)))

end Station

namespace Station

/-- A station with one drone at the station's own position and `Down[0]` set. -/
def stationDownFlagged : GroundStation :=
  { TotalDrones := 1, GridSize := 1, Position := (0, 0), DronesPos := fun _ => (0, 0),
    Graph := fun _ _ => false, Grid := fun _ _ => 0, Down := fun i => decide (i = 0) }

/-- A station whose two drones sit at the two ends of the `int` range on the first axis. -/
def stationFarApart : GroundStation :=
  { TotalDrones := 2, GridSize := 1, Position := (0, 0),
    DronesPos := fun i => if i = 1 then (9223372036854775807, 0)
      else if i = 2 then (-9223372036854775808, 0) else (0, 0),
    Graph := fun _ _ => false, Grid := fun _ _ => 0, Down := fun _ => false }

/-- A station with two drones on a fresh `2 × 2` grid, everything at the origin. -/
def stationFresh : GroundStation :=
  { TotalDrones := 2, GridSize := 2, Position := (0, 0), DronesPos := fun _ => (0, 0),
    Graph := fun _ _ => false, Grid := fun _ _ => 0, Down := fun _ => false }

end Station

namespace Station

/-- A station with one drone on a fresh `1 × 1` grid. -/
def stationUnit : GroundStation :=
  { TotalDrones := 1, GridSize := 1, Position := (0, 0), DronesPos := fun _ => (0, 0),
    Graph := fun _ _ => false, Grid := fun _ _ => 0, Down := fun _ => false }

end Station

namespace Station

/-- Hop distance between grid cells under 4-neighbour moves (Manhattan distance). -/
def hops (p c : Int × Int) : Nat := (c.1 - p.1).natAbs + (c.2 - p.2).natAbs

/-- Loop invariant of `GetClosest` at the head of `for len(queue) > 0`, for a search
started at `p`. -/
structure SearchInv (gs : GroundStation) (p : Int × Int) (q : List (Int × Int))
    (vis : Int → Int → Bool) : Prop where
  queued : ∀ c ∈ q, vis c.1 c.2 = true
  seenInside : ∀ a b, vis a b = true → gs.inside a b = true
  sorted : q.Pairwise (fun a b => hops p a ≤ hops p b)
  close : ∀ a ∈ q, ∀ b ∈ q, hops p a ≤ hops p b + 1
  done : ∀ a b, vis a b = true → (a, b) ∉ q →
    gs.Grid a b = VISITED ∧
      ∀ d ∈ directions, gs.inside (a + d.1) (b + d.2) = true → vis (a + d.1) (b + d.2) = true
  start : vis p.1 p.2 = true

/-- Invariant of the inner loop over `directions` while cell `h` is expanded and the
directions `ds` have been handled. -/
structure ExpandInv (gs : GroundStation) (p h : Int × Int) (ds : List (Int × Int))
    (q : List (Int × Int)) (vis : Int → Int → Bool) : Prop where
  queued : ∀ c ∈ q, vis c.1 c.2 = true
  seenInside : ∀ a b, vis a b = true → gs.inside a b = true
  sorted : q.Pairwise (fun a b => hops p a ≤ hops p b)
  level : ∀ c ∈ q, hops p h ≤ hops p c ∧ hops p c ≤ hops p h + 1
  done : ∀ a b, vis a b = true → (a, b) ∉ q → (a, b) ≠ h →
    gs.Grid a b = VISITED ∧
      ∀ d ∈ directions, gs.inside (a + d.1) (b + d.2) = true → vis (a + d.1) (b + d.2) = true
  start : vis p.1 p.2 = true
  headSeen : vis h.1 h.2 = true
  headVisited : gs.Grid h.1 h.2 = VISITED
  headDirs : ∀ d ∈ ds, gs.inside (h.1 + d.1) (h.2 + d.2) = true →
    vis (h.1 + d.1) (h.2 + d.2) = true
  below : ∀ a b, gs.inside a b = true → hops p (a, b) < hops p h → vis a b = true

/-- Grid cells not yet marked in `vis`. -/
def unseen (gs : GroundStation) (vis : Int → Int → Bool) : Finset (Int × Int) :=
  ((Finset.Ico (0 : Int) gs.GridSize) ×ˢ (Finset.Ico (0 : Int) gs.GridSize)).filter
    (fun c => vis c.1 c.2 = false)

/-- What `GetClosest` promises about its result `r` for a search started at `p`. -/
def ClosestSpec (gs : GroundStation) (p r : Int × Int) : Prop :=
  (r = (-1, -1) ↔ ∀ a b, gs.inside a b = true → gs.Grid a b = VISITED) ∧
  (r ≠ (-1, -1) →
    gs.inside r.1 r.2 = true ∧ gs.Grid r.1 r.2 ≠ VISITED ∧
      ∀ a b, gs.inside a b = true → gs.Grid a b ≠ VISITED → hops p r ≤ hops p (a, b))

end Station

namespace Simulator

/-- Models `m[k] = v` on a Go map held as an association list with one entry per key. -/
def mapSet {β : Type} : List (Int × β) → Int → β → List (Int × β)
  | [], k, v => [(k, v)]
  | (k', v') :: m, k, v => if k' = k then (k, v) :: m else (k', v') :: mapSet m k v

/-- Models `sim.Graph[k]` on the adjacency map: the nil slice when the key is absent. -/
def adj (g : List (Int × List Int)) (k : Int) : List Int := (g.lookup k).getD []

/-- The float64 operations used by `distance` of `simulation.go`, on a type `F` standing
for `float64`: subtraction, addition, `math.Pow(x, 2)`, `math.Sqrt`, and the comparison
`x <= MAX_DIST` with `MAX_DIST = 10.0`. -/
structure Float64Ops (F : Type) where
  sub : F → F → F
  add : F → F → F
  pow2 : F → F
  sqrt : F → F
  leMaxDist : F → Bool

/-- Models `distance` of `simulation.go`:
`math.Sqrt(math.Pow(pos1[0]-pos2[0], 2) + math.Pow(pos1[1]-pos2[1], 2))`. -/
def distance {F : Type} (ops : Float64Ops F) (pos1 pos2 : F × F) : F :=
  ops.sqrt (ops.add (ops.pow2 (ops.sub pos1.1 pos2.1)) (ops.pow2 (ops.sub pos1.2 pos2.2)))

/-- Body of the inner loop of `Simulation.UpdateConnectivity` for drone `d1` of the
outer loop and drone `d2` of the inner one:
`if id1 != id2 && distance(drone1.Position, drone2.Position) <= MAX_DIST`. -/
def connectStep {F : Type} (ops : Float64Ops F) (d1 : Int × (F × F))
    (newGraph : List (Int × List Int)) (d2 : Int × (F × F)) : List (Int × List Int) :=
  if d1.1 ≠ d2.1 ∧ ops.leMaxDist (distance ops d1.2 d2.2) = true then
    mapSet newGraph d1.1 (adj newGraph d1.1 ++ [d2.1])
  else newGraph

/-- The adjacency map `newGraph` built by `Simulation.UpdateConnectivity`. Go ranges over
`sim.Drones` in an unspecified order that may differ on every `range`: `outer` is the
order of the outer loop and `inner id1` the order of the inner loop run for `id1`. -/
def buildGraph {F : Type} (ops : Float64Ops F) (outer : List (Int × (F × F)))
    (inner : Int → List (Int × (F × F))) : List (Int × List Int) :=
  outer.foldl (fun g d1 => (inner d1.1).foldl (connectStep ops d1) g) []

/-- A Go slice header over a heap of backing arrays: `ptr` is the index of the backing
array, `len` the length; the capacity is the length of the backing array. All slices of
`BFS` start at offset 0 of their array. -/
structure Slice where
  ptr : Nat
  len : Nat
deriving DecidableEq, Repr

/-- Models `append(s, x)`: the element is stored in place when the capacity allows it, otherwise
a new array of capacity `grow cap (len+1)` (at least `len+1`) receives a copy. -/
def appendSlice (grow : Nat → Nat → Nat) (heap : List (List Int)) (s : Slice) (x : Int) :
    List (List Int) × Slice :=
  let arr := heap.getD s.ptr []
  if s.len < arr.length then
    (heap.set s.ptr (arr.set s.len x), ⟨s.ptr, s.len + 1⟩)
  else
    (heap ++ [arr.take s.len ++ [x] ++ List.replicate (grow arr.length (s.len + 1) - (s.len + 1)) 0],
      ⟨heap.length, s.len + 1⟩)

/-- The elements of a slice. -/
def readSlice (heap : List (List Int)) (s : Slice) : List Int := (heap.getD s.ptr []).take s.len

/-- Capacity chosen by the Go runtime (`growslice`) when an `[]int` of fewer than 256
elements must grow to hold `needed` elements: double the old capacity, or `needed` when
that is more. The results 1, 2, 4, 8, ... are allocation size classes, so no rounding
applies. -/
def goGrow (oldCap needed : Nat) : Nat := if 2 * oldCap < needed then needed else 2 * oldCap

/-- Local state of `Simulation.BFS`. `visited` lists the keys set to `true`; the slices
in `paths` point into `heap`, whose array 0 is the empty array of `[]int{}`. -/
structure SearchState where
  queue : List Int
  visited : List Int
  paths : List (Int × Slice)
  heap : List (List Int)
deriving DecidableEq, Repr

/-- Models `paths[k]`: the nil slice when the key is absent. -/
def pathOf (st : SearchState) (k : Int) : Slice := (st.paths.lookup k).getD ⟨0, 0⟩

/-- Body of `for _, neighbor := range sim.Graph[current]`. -/
def visit (grow : Nat → Nat → Nat) (current : Int) (st : SearchState) (neighbor : Int) :
    SearchState :=
  if neighbor ∈ st.visited then st
  else
    let r := appendSlice grow st.heap (pathOf st current) current
    { queue := st.queue ++ [neighbor]
      visited := neighbor :: st.visited
      paths := mapSet st.paths neighbor r.2
      heap := r.1 }

/-- The loop `for len(queue) > 0` of `BFS`, at most `fuel` iterations. -/
def bfsLoop (grow : Nat → Nat → Nat) (g : List (Int × List Int)) :
    Nat → SearchState → Option SearchState
  | 0, _ => none
  | fuel + 1, st =>
    match st.queue with
    | [] => some st
    | current :: rest =>
      bfsLoop grow g fuel ((adj g current).foldl (visit grow current) { st with queue := rest })

/-- Iterations that exhaust the loop: every queued node other than the source is an
element of some adjacency list. -/
def bfsFuel (g : List (Int × List Int)) : Nat := (g.map (fun e => e.2.length)).sum + 2

/-- The state before the loop: `queue := []int{source}`, `visited[source] = true`,
`paths[source] = []int{}`. -/
def initialState (source : Int) : SearchState :=
  { queue := [source], visited := [source], paths := [(source, ⟨0, 0⟩)], heap := [[]] }

/-- Models `Simulation.BFS(source)`: the state when the loop ends; `paths` and `heap` are the
returned map. -/
def BFS (grow : Nat → Nat → Nat) (g : List (Int × List Int)) (source : Int) :
    Option SearchState :=
  bfsLoop grow g (bfsFuel g) (initialState source)

/-- Models `paths[k]` of the returned map as a list, `none` when `k` has no entry. -/
def pathTo (st : SearchState) (k : Int) : Option (List Int) :=
  (st.paths.lookup k).map (readSlice st.heap)

/-- A walk of `n` edges from `u` to `v` in the adjacency map. -/
inductive Walk (g : List (Int × List Int)) : Int → Int → Nat → Prop where
  | nil (u : Int) : Walk g u u 0
  | snoc {u v w : Int} {n : Nat} (h : Walk g u v n) (e : w ∈ adj g v) : Walk g u w (n + 1)

/-- The line graph `0-1-2-3`. -/
def lineGraph : List (Int × List Int) := [(0, [1]), (1, [0, 2]), (2, [1, 3]), (3, [2])]

/-- A chain `0-1-2-3-4-5` whose end `5` has the two neighbours `6` and `7`, each with one
further neighbour, `8` next to `6` and `9` next to `7`. -/
def forkGraph : List (Int × List Int) :=
  [(0, [1]), (1, [0, 2]), (2, [1, 3]), (3, [2, 4]), (4, [3, 5]), (5, [4, 6, 7]),
   (6, [5, 8]), (7, [5, 9]), (8, [6]), (9, [7])]

/-- The property of a hop sequence `path` for node `k`: it starts at the source, each
entry is followed by one of its neighbours, and `k` is a neighbour of the last entry. -/
def isHopSequence (g : List (Int × List Int)) (source k : Int) (path : List Int) : Bool :=
  path.head? == some source &&
    (path.zip path.tail).all (fun e => decide (e.2 ∈ adj g e.1)) &&
    (match path.getLast? with
      | some l => decide (k ∈ adj g l)
      | none => false)

end Simulator

namespace Simulator

/-- Length of `paths[k]`. -/
def lev (st : SearchState) (k : Int) : Nat := (pathOf st k).len

/-- All nodes that occur in some adjacency list. -/
def listed (g : List (Int × List Int)) : Finset Int := (g.flatMap (fun e => e.2)).toFinset

/-- Loop invariant of `BFS` at the head of `for len(queue) > 0`. -/
structure BfsInv (g : List (Int × List Int)) (s : Int) (st : SearchState) : Prop where
  keys : ∀ k, k ∈ st.visited ↔ (st.paths.lookup k).isSome = true
  walk : ∀ k ∈ st.visited, Walk g s k (lev st k)
  queued : ∀ k ∈ st.queue, k ∈ st.visited
  sorted : st.queue.Pairwise (fun a b => lev st a ≤ lev st b)
  close : ∀ a ∈ st.queue, ∀ b ∈ st.queue, lev st a ≤ lev st b + 1
  done : ∀ k ∈ st.visited, k ∉ st.queue →
    (∀ n ∈ adj g k, n ∈ st.visited ∧ lev st n ≤ lev st k + 1) ∧
      ∀ x ∈ st.queue, lev st k ≤ lev st x
  start : s ∈ st.visited ∧ lev st s = 0
  heapWf : ∀ k ∈ st.visited, (pathOf st k).ptr < st.heap.length ∧
    (pathOf st k).len ≤ (st.heap.getD (pathOf st k).ptr []).length

/-- Invariant of the inner loop of `BFS` while `u` is expanded and the neighbours `ns`
have been handled. -/
structure BfsMid (g : List (Int × List Int)) (s u : Int) (ns : List Int)
    (st : SearchState) : Prop where
  keys : ∀ k, k ∈ st.visited ↔ (st.paths.lookup k).isSome = true
  walk : ∀ k ∈ st.visited, Walk g s k (lev st k)
  queued : ∀ k ∈ st.queue, k ∈ st.visited
  sorted : st.queue.Pairwise (fun a b => lev st a ≤ lev st b)
  level : ∀ x ∈ st.queue, lev st u ≤ lev st x ∧ lev st x ≤ lev st u + 1
  uVisited : u ∈ st.visited
  done : ∀ k ∈ st.visited, k ∉ st.queue → k ≠ u →
    (∀ n ∈ adj g k, n ∈ st.visited ∧ lev st n ≤ lev st k + 1) ∧ lev st k ≤ lev st u
  uDirs : ∀ n ∈ ns, n ∈ st.visited ∧ lev st n ≤ lev st u + 1
  start : s ∈ st.visited ∧ lev st s = 0
  heapWf : ∀ k ∈ st.visited, (pathOf st k).ptr < st.heap.length ∧
    (pathOf st k).len ≤ (st.heap.getD (pathOf st k).ptr []).length

end Simulator

namespace Simulator

/-- Termination measure of the `BFS` loop: queued nodes plus listed nodes not yet
visited. -/
def bfsMeasure (g : List (Int × List Int)) (st : SearchState) : Nat :=
  st.queue.length + (listed g \ st.visited.toFinset).card

end Simulator

namespace Simulator

/-- Exact arithmetic on integers in the place of the float64 operations, to run
`buildGraph` on concrete data: the square root is the integer square root. -/
def intOps : Float64Ops Int :=
  { sub := fun a b => a - b
    add := fun a b => a + b
    pow2 := fun a => a * a
    sqrt := fun a => (Nat.sqrt a.toNat : Int)
    leMaxDist := fun a => decide (a ≤ 10) }

/-- Three drones: 0 and 1 five apart, 2 far away. -/
def threeDrones : List (Int × (Int × Int)) := [(0, (0, 0)), (1, (3, 4)), (2, (50, 50))]

end Simulator

/-! # Theorems -/

theorem wrap64_id {x : Int} (h : isInt64 x) : wrap64 x = x := by
  unfold isInt64 at h; unfold wrap64; omega

namespace DroneAgent

/-- One axis step lands between the old coordinate and the goal, and either hits the
goal or advances by a full `speed`. -/
theorem moveAxis_spec (s p g : Int) (hs : 1 ≤ s) (hs' : isInt64 s) (hp : isInt64 p)
    (hg : isInt64 g) :
    (p ≤ g → p ≤ moveAxis s p g ∧ moveAxis s p g ≤ g) ∧
    (g ≤ p → g ≤ moveAxis s p g ∧ moveAxis s p g ≤ p) ∧
      (moveAxis s p g = g ∨ ((g - moveAxis s p g).natAbs : Int) + s ≤ (g - p).natAbs) := by
  unfold isInt64 at *
  simp only [moveAxis, abs, wrap64]
  split_ifs <;> omega

theorem moveAxis_between (s p g : Int) (hs : 1 ≤ s) (hs' : isInt64 s) (hp : isInt64 p)
    (hg : isInt64 g) :
    (p ≤ moveAxis s p g ∧ moveAxis s p g ≤ g) ∨ (g ≤ moveAxis s p g ∧ moveAxis s p g ≤ p) := by
  have h := moveAxis_spec s p g hs hs' hp hg
  rcases le_total p g with h1 | h1
  · exact Or.inl (h.1 h1)
  · exact Or.inr (h.2.1 h1)

theorem moveAxis_isInt64 (s p g : Int) (hs : 1 ≤ s) (hs' : isInt64 s) (hp : isInt64 p)
    (hg : isInt64 g) : isInt64 (moveAxis s p g) := by
  have h := moveAxis_between s p g hs hs' hp hg
  unfold isInt64 at *
  omega

theorem ceilDiv_nonneg {a s : Int} (ha : 0 ≤ a) (hs : 1 ≤ s) : 0 ≤ ceilDiv a s := by
  unfold ceilDiv
  exact Int.ediv_nonneg (by omega) (by omega)

theorem ceilDiv_zero {s : Int} (hs : 1 ≤ s) : ceilDiv 0 s = 0 := by
  unfold ceilDiv
  exact Int.ediv_eq_zero_of_lt (by omega) (by omega)

theorem ceilDiv_pos {a s : Int} (ha : 1 ≤ a) (hs : 1 ≤ s) : 1 ≤ ceilDiv a s := by
  unfold ceilDiv
  rw [Int.le_ediv_iff_mul_le (by omega)]
  omega

theorem ceilDiv_step {a b s : Int} (hs : 1 ≤ s) (h : b + s ≤ a) :
    ceilDiv b s + 1 ≤ ceilDiv a s := by
  unfold ceilDiv
  have h1 : (b + s - 1) / s + 1 = (b + s - 1 + s) / s := by
    rw [Int.add_ediv_of_dvd_right (dvd_refl s), Int.ediv_self (by omega)]
  rw [h1]
  exact Int.ediv_le_ediv (by omega) (by omega)

/-- Decrease of the per-axis tick count after one axis step away from the goal. -/
theorem ceilDiv_moveAxis (s p g : Int) (hs : 1 ≤ s) (hs' : isInt64 s) (hp : isInt64 p)
    (hg : isInt64 g) (hne : p ≠ g) :
    ceilDiv (g - moveAxis s p g).natAbs s + 1 ≤ ceilDiv (g - p).natAbs s := by
  rcases (moveAxis_spec s p g hs hs' hp hg).2.2 with h | h
  · rw [h]
    simp only [sub_self, Int.natAbs_zero, Nat.cast_zero, ceilDiv_zero hs]
    have : (1 : Int) ≤ (g - p).natAbs := by omega
    have := ceilDiv_pos this hs
    omega
  · exact ceilDiv_step hs h

/-- The tick potential as an integer. -/
theorem ticksToGoal_cast (d : Drone) (hs : 1 ≤ d.Speed) :
    (ticksToGoal d : Int) = ceilDiv (d.GoalPosition.1 - d.Position.1).natAbs d.Speed
      + ceilDiv (d.GoalPosition.2 - d.Position.2).natAbs d.Speed := by
  unfold ticksToGoal
  have h1 := ceilDiv_nonneg (a := ((d.GoalPosition.1 - d.Position.1).natAbs : Int)) (by omega) hs
  have h2 := ceilDiv_nonneg (a := ((d.GoalPosition.2 - d.Position.2).natAbs : Int)) (by omega) hs
  omega

theorem Move_frame (d : Drone) : (Move d).GoalPosition = d.GoalPosition ∧
    (Move d).Speed = d.Speed ∧ (Move d).ID = d.ID ∧ (Move d).Stop = d.Stop := by
  unfold Move; split_ifs <;> simp

theorem Move_wf (d : Drone) (hwf : d.wf) (hs : 1 ≤ d.Speed) : (Move d).wf := by
  obtain ⟨h1, h2, h3, h4, h5⟩ := hwf
  unfold Move; split_ifs
  · exact ⟨moveAxis_isInt64 _ _ _ hs h5 h1 h3, h2, h3, h4, h5⟩
  · exact ⟨h1, moveAxis_isInt64 _ _ _ hs h5 h2 h4, h3, h4, h5⟩
  · exact ⟨h1, h2, h3, h4, h5⟩

theorem Move_at_goal (d : Drone) (h : d.Position = d.GoalPosition) : Move d = d := by
  unfold Move; rw [h]; simp

theorem Move_ticks (d : Drone) (hwf : d.wf) (hs : 1 ≤ d.Speed)
    (hne : d.Position ≠ d.GoalPosition) : ticksToGoal (Move d) + 1 ≤ ticksToGoal d := by
  have hc := ticksToGoal_cast d hs
  have hf := Move_frame d
  have hc' := ticksToGoal_cast (Move d) (by rw [hf.2.1]; exact hs)
  rw [hf.1, hf.2.1] at hc'
  obtain ⟨h1, h2, h3, h4, h5⟩ := hwf
  have key : ceilDiv ((d.GoalPosition.1 - (Move d).Position.1).natAbs : Int) d.Speed
      + ceilDiv ((d.GoalPosition.2 - (Move d).Position.2).natAbs : Int) d.Speed + 1
      ≤ ceilDiv ((d.GoalPosition.1 - d.Position.1).natAbs : Int) d.Speed
      + ceilDiv ((d.GoalPosition.2 - d.Position.2).natAbs : Int) d.Speed := by
    unfold Move; split_ifs with ha hb
    · have := ceilDiv_moveAxis _ _ _ hs h5 h1 h3 ha
      simp only
      omega
    · have := ceilDiv_moveAxis _ _ _ hs h5 h2 h4 hb
      simp only
      omega
    · exact absurd (Prod.ext (not_not.mp ha) (not_not.mp hb)) hne
  omega

theorem Move_iterate_reaches (n : Nat) : ∀ d : Drone, d.wf → 1 ≤ d.Speed →
    ticksToGoal d ≤ n → (Move^[n] d).Position = d.GoalPosition := by
  induction n with
  | zero =>
    intro d hwf hs hn
    by_contra hne
    have := Move_ticks d hwf hs hne
    omega
  | succ n ih =>
    intro d hwf hs hn
    rw [Function.iterate_succ_apply]
    by_cases hne : d.Position = d.GoalPosition
    · rw [Move_at_goal d hne]
      exact ih d hwf hs (by
        by_contra hlt
        have hc := ticksToGoal_cast d hs
        rw [hne] at hc
        simp only [sub_self, Int.natAbs_zero, Nat.cast_zero, ceilDiv_zero hs] at hc
        omega)
    · have hf := Move_frame d
      have := Move_ticks d hwf hs hne
      have h := ih (Move d) (Move_wf d hwf hs) (by rw [hf.2.1]; exact hs) (by omega)
      rw [h, hf.1]

/-- C2. For every drone whose fields are Go `int`s with `Speed ≥ 1`, one call of `Move`
changes at most one coordinate (the first when it differs from the goal, otherwise the
second); on each axis the new coordinate lies between the old one and the goal, so the
distance to the goal does not increase and the sign of goal minus position does not flip;
and after `ceil(|dx|/Speed) + ceil(|dy|/Speed)` calls (or more) the position equals the
goal exactly. -/
theorem Move_never_overshoots_and_arrives (d : Drone) (hwf : d.wf) (hs : 1 ≤ d.Speed) :
    (d.Position.1 ≠ d.GoalPosition.1 → (Move d).Position.2 = d.Position.2) ∧
    (d.Position.1 = d.GoalPosition.1 → (Move d).Position.1 = d.Position.1) ∧
    ((Move d).Position.1 - d.GoalPosition.1).natAbs ≤ (d.Position.1 - d.GoalPosition.1).natAbs ∧
    ((Move d).Position.2 - d.GoalPosition.2).natAbs ≤ (d.Position.2 - d.GoalPosition.2).natAbs ∧
    (d.Position.1 ≤ d.GoalPosition.1 → (Move d).Position.1 ≤ d.GoalPosition.1) ∧
    (d.GoalPosition.1 ≤ d.Position.1 → d.GoalPosition.1 ≤ (Move d).Position.1) ∧
    (d.Position.2 ≤ d.GoalPosition.2 → (Move d).Position.2 ≤ d.GoalPosition.2) ∧
    (d.GoalPosition.2 ≤ d.Position.2 → d.GoalPosition.2 ≤ (Move d).Position.2) ∧
    (Move d).GoalPosition = d.GoalPosition ∧
    (Move^[ticksToGoal d] d).Position = d.GoalPosition ∧
    (∀ n, ticksToGoal d ≤ n → (Move^[n] d).Position = d.GoalPosition) := by
  obtain ⟨h1, h2, h3, h4, h5⟩ := hwf
  have hx := moveAxis_between d.Speed d.Position.1 d.GoalPosition.1 hs h5 h1 h3
  have hy := moveAxis_between d.Speed d.Position.2 d.GoalPosition.2 hs h5 h2 h4
  have hwf : d.wf := ⟨h1, h2, h3, h4, h5⟩
  refine ⟨?_, ?_, ?_, ?_, ?_, ?_, ?_, ?_, (Move_frame d).1,
    Move_iterate_reaches _ d hwf hs le_rfl, fun n hn => Move_iterate_reaches n d hwf hs hn⟩
  all_goals (unfold Move; split_ifs <;> (try dsimp only) <;> (try intro _) <;> omega)

/-- Instance of C2: speed 2 from `(0,0)` to `(5,-3)`. -/
theorem Move_never_overshoots_and_arrives_witness :
    (Move^[ticksToGoal ⟨1, (0, 0), (5, -3), 2, false⟩] ⟨1, (0, 0), (5, -3), 2, false⟩).Position
      = (5, -3) :=
  (Move_never_overshoots_and_arrives ⟨1, (0, 0), (5, -3), 2, false⟩
    (by unfold Drone.wf isInt64; decide) (by decide)).2.2.2.2.2.2.2.2.2.1

/-- C3 (evaluation at the failing input). A stopped drone at `(0,0)` that receives
`GO` with point `(0,1)` ends with goal `(0,0)`, its own position, not the point sent. -/
theorem Listen_GO_ignores_point :
    (Listen ⟨1, (0, 0), (0, 0), 1, true⟩ ⟨0, "GO", (0, 1)⟩).GoalPosition = (0, 0) ∧
    (Listen ⟨1, (0, 0), (0, 0), 1, true⟩ ⟨0, "GO", (0, 1)⟩).GoalPosition ≠ (0, 1) ∧
    (Listen ⟨1, (0, 0), (0, 0), 1, true⟩ ⟨0, "GO", (0, 1)⟩).Stop = false := by
  decide

/-- What the `GO` branch of `Listen` does on every drone and message. -/
theorem Listen_GO_general (d : Drone) (m : Message) (h : m.Content = "GO") :
    Listen d m = { d with GoalPosition := d.Position, Stop := false } := by
  unfold Listen; rw [if_pos h]

end DroneAgent

namespace Station

/-! ## Connectivity matrix of the ground station -/

theorem foldl_flatMap_pairs {β : Type} (f : β → Nat × Nat → β) (g : Nat → List Nat) :
    ∀ (l : List Nat) (b : β),
      (l.flatMap (fun i => (g i).map (fun j => (i, j)))).foldl f b =
        l.foldl (fun acc i => (g i).foldl (fun acc j => f acc (i, j)) acc) b := by
  intro l
  induction l with
  | nil => intro b; rfl
  | cons i l ih =>
    intro b
    simp only [List.flatMap_cons, List.foldl_append, List.foldl_cons, List.foldl_map, ih]

theorem linkStation_eq (gs : GroundStation) (acc : Bool × (Nat → Nat → Bool)) (i : Nat) :
    linkStation gs acc i = relink (connOf gs) acc (0, i) := by
  simp [linkStation, relink, connOf]

theorem linkPair_eq (gs : GroundStation) (acc : Bool × (Nat → Nat → Bool)) (i j : Nat)
    (hi : i ≠ 0) : linkPair gs i acc j = relink (connOf gs) acc (i, j) := by
  simp [linkPair, relink, connOf, hi]

theorem foldl_congr_mem {α β : Type} (f g : β → α → β) :
    ∀ (l : List α) (b : β), (∀ x ∈ l, ∀ b, f b x = g b x) → l.foldl f b = l.foldl g b := by
  intro l
  induction l with
  | nil => intro b _; rfl
  | cons x l ih =>
    intro b h
    simp only [List.foldl_cons]
    rw [h x (List.mem_cons_self _ _) b]
    exact ih _ (fun y hy => h y (List.mem_cons_of_mem _ hy))

/-- The function `UpdateConnectivity` is one pass of `relink` over `edges`. -/
theorem UpdateConnectivity_eq (gs : GroundStation) :
    UpdateConnectivity gs =
      (((edges gs.TotalDrones).foldl (relink (connOf gs)) (false, gs.Graph)).1,
        { gs with Graph := ((edges gs.TotalDrones).foldl (relink (connOf gs))
            (false, gs.Graph)).2 }) := by
  have h1 : ∀ b, (List.range' 1 gs.TotalDrones).foldl (linkStation gs) b =
      ((List.range' 1 gs.TotalDrones).map (fun i => (0, i))).foldl (relink (connOf gs)) b := by
    intro b
    rw [List.foldl_map]
    exact foldl_congr_mem _ _ _ _ (fun x _ b => linkStation_eq gs b x)
  have h2 : ∀ b, (List.range' 1 gs.TotalDrones).foldl
      (fun acc i => (List.range' (i + 1) (gs.TotalDrones - i)).foldl (linkPair gs i) acc) b =
      ((List.range' 1 gs.TotalDrones).flatMap
        (fun i => (List.range' (i + 1) (gs.TotalDrones - i)).map (fun j => (i, j)))).foldl
        (relink (connOf gs)) b := by
    intro b
    rw [foldl_flatMap_pairs]
    refine foldl_congr_mem _ _ _ _ (fun i hi b => ?_)
    have hi0 : i ≠ 0 := by
      rw [List.mem_range'_1] at hi; omega
    exact foldl_congr_mem _ _ _ _ (fun j _ b => linkPair_eq gs b i j hi0)
  unfold UpdateConnectivity edges
  simp only [List.foldl_append, h1, h2]

theorem mem_edges (T a b : Nat) : (a, b) ∈ edges T ↔ a < b ∧ b ≤ T := by
  unfold edges
  simp only [List.mem_append, List.mem_map, List.mem_flatMap, List.mem_range'_1, Prod.mk.injEq]
  constructor
  · rintro (⟨i, hi, h0, rfl⟩ | ⟨i, hi, j, hj, rfl, rfl⟩) <;> omega
  · rintro ⟨h1, h2⟩
    by_cases ha : a = 0
    · exact Or.inl ⟨b, by omega, ha.symm, rfl⟩
    · exact Or.inr ⟨a, by omega, b, by omega, rfl, rfl⟩

theorem edges_nodup (T : Nat) : (edges T).Nodup := by
  unfold edges
  rw [List.nodup_append]
  refine ⟨?_, ?_, ?_⟩
  · exact (List.nodup_range' 1 T).map (fun a b h => by simpa using h)
  · rw [List.nodup_flatMap]
    refine ⟨fun i _ => (List.nodup_range' _ _).map (fun a b h => by simpa using h), ?_⟩
    refine List.Pairwise.imp ?_ (List.nodup_range' 1 T)
    intro a b hab x hx1 hx2
    simp only [List.mem_map] at hx1 hx2
    obtain ⟨j, _, rfl⟩ := hx1
    obtain ⟨k, _, hk⟩ := hx2
    simp only [Prod.mk.injEq] at hk
    exact hab hk.1.symm
  · intro x hx1 hx2
    simp only [List.mem_map, List.mem_flatMap, List.mem_range'_1] at hx1 hx2
    obtain ⟨i, hi, rfl⟩ := hx1
    obtain ⟨a, ha, j, _, hj⟩ := hx2
    simp only [Prod.mk.injEq] at hj
    omega

end Station

namespace Station

theorem relink_foldl (conn : Nat → Nat → Bool) :
    ∀ (es : List (Nat × Nat)), (∀ e ∈ es, e.1 < e.2) → es.Nodup →
      ∀ (r : Bool) (G : Nat → Nat → Bool),
        es.foldl (relink conn) (r, G) =
          (r || es.any (fun e => G e.1 e.2 != conn e.1 e.2),
            fun a b => if (a, b) ∈ es then conn a b
              else if (b, a) ∈ es then conn b a else G a b) := by
  intro es
  induction es with
  | nil => intro _ _ r G; simp
  | cons e es ih =>
    intro hlt hnd r G
    have he : e.1 < e.2 := hlt e (List.mem_cons_self _ _)
    have hlt' : ∀ x ∈ es, x.1 < x.2 := fun x hx => hlt x (List.mem_cons_of_mem _ hx)
    obtain ⟨hnotin, hnd'⟩ := List.nodup_cons.mp hnd
    rw [List.foldl_cons]
    have hstep : relink conn (r, G) e =
        (if G e.1 e.2 != conn e.1 e.2 then true else r,
          setGraph (setGraph G e.1 e.2 (conn e.1 e.2)) e.2 e.1 (conn e.1 e.2)) := rfl
    rw [hstep, ih hlt' hnd']
    have hsame : ∀ x ∈ es, setGraph (setGraph G e.1 e.2 (conn e.1 e.2)) e.2 e.1
        (conn e.1 e.2) x.1 x.2 = G x.1 x.2 := by
      intro x hx
      have hx1 := hlt' x hx
      have hne : ¬ (x.1 = e.1 ∧ x.2 = e.2) := by
        rintro ⟨h1, h2⟩
        have hxe : x = e := Prod.ext h1 h2
        exact hnotin (hxe ▸ hx)
      have hne2 : ¬ (x.1 = e.2 ∧ x.2 = e.1) := by omega
      simp only [setGraph, hne, hne2, if_false]
    have hany : (es.any fun x => setGraph (setGraph G e.1 e.2 (conn e.1 e.2)) e.2 e.1
        (conn e.1 e.2) x.1 x.2 != conn x.1 x.2) = es.any fun x => G x.1 x.2 != conn x.1 x.2 := by
      rw [Bool.eq_iff_iff]
      simp only [List.any_eq_true]
      constructor
      · rintro ⟨x, hx, h⟩
        exact ⟨x, hx, by rw [hsame x hx] at h; exact h⟩
      · rintro ⟨x, hx, h⟩
        exact ⟨x, hx, by rw [hsame x hx]; exact h⟩
    refine Prod.ext ?_ ?_
    · simp only [hany, List.any_cons]
      cases (G e.1 e.2 != conn e.1 e.2) <;> cases r <;> simp
    · funext a b
      simp only [List.mem_cons]
      by_cases h1 : (a, b) ∈ es
      · simp [h1]
      · by_cases h2 : (b, a) ∈ es
        · have hab := hlt' _ h2
          have h3 : (a, b) ≠ e := by
            intro h; rw [← h] at he; simp only at he hab; omega
          simp [h1, h2, h3]
        · rw [if_neg h1, if_neg h2]
          by_cases h3 : (a, b) = e
          · have h5 : a = e.1 ∧ b = e.2 := by rw [← h3]; exact ⟨rfl, rfl⟩
            rw [if_pos (Or.inl h3)]
            obtain ⟨rfl, rfl⟩ := h5
            simp [setGraph]
          · by_cases h4 : (b, a) = e
            · have h6 : a = e.2 ∧ b = e.1 := by rw [← h4]; exact ⟨rfl, rfl⟩
              have h7 : ¬ ((a, b) = e ∨ (a, b) ∈ es) := fun h => h.elim h3 h1
              rw [if_neg h7, if_pos (Or.inl h4)]
              obtain ⟨rfl, rfl⟩ := h6
              simp [setGraph]
            · have h5 : ¬ (a = e.1 ∧ b = e.2) := fun h => h3 (Prod.ext h.1 h.2)
              have h6 : ¬ (a = e.2 ∧ b = e.1) := fun h => h4 (Prod.ext h.2 h.1)
              have h7 : ¬ ((a, b) = e ∨ (a, b) ∈ es) := fun h => h.elim h3 h1
              have h8 : ¬ ((b, a) = e ∨ (b, a) ∈ es) := fun h => h.elim h4 h2
              rw [if_neg h7, if_neg h8]
              simp only [setGraph, h5, h6, if_false]

/-- Closed form of the matrix after `UpdateConnectivity`. -/
theorem UpdateConnectivity_graph (gs : GroundStation) (a b : Nat) :
    (UpdateConnectivity gs).2.Graph a b =
      if a < b ∧ b ≤ gs.TotalDrones then connOf gs a b
      else if b < a ∧ a ≤ gs.TotalDrones then connOf gs b a
      else gs.Graph a b := by
  rw [UpdateConnectivity_eq]
  simp only
  rw [relink_foldl _ _ (fun e he => ((mem_edges _ e.1 e.2).mp he).1) (edges_nodup _)]
  simp only [mem_edges]

/-- Closed form of the flag returned by `UpdateConnectivity`. -/
theorem UpdateConnectivity_ret (gs : GroundStation) :
    (UpdateConnectivity gs).1 = true ↔
      ∃ a b, a < b ∧ b ≤ gs.TotalDrones ∧ gs.Graph a b ≠ connOf gs a b := by
  rw [UpdateConnectivity_eq]
  simp only
  rw [relink_foldl _ _ (fun e he => ((mem_edges _ e.1 e.2).mp he).1) (edges_nodup _)]
  simp only [Bool.false_or, List.any_eq_true, bne_iff_ne, ne_eq]
  constructor
  · rintro ⟨e, he, h⟩
    exact ⟨e.1, e.2, ((mem_edges _ _ _).mp he).1, ((mem_edges _ _ _).mp he).2, h⟩
  · rintro ⟨a, b, h1, h2, h⟩
    exact ⟨(a, b), (mem_edges _ _ _).mpr ⟨h1, h2⟩, h⟩

theorem UpdateConnectivity_frame (gs : GroundStation) :
    (UpdateConnectivity gs).2.TotalDrones = gs.TotalDrones ∧
    (UpdateConnectivity gs).2.DronesPos = gs.DronesPos ∧
    (UpdateConnectivity gs).2.Down = gs.Down ∧
    (UpdateConnectivity gs).2.Position = gs.Position ∧
    (UpdateConnectivity gs).2.Grid = gs.Grid ∧
    (UpdateConnectivity gs).2.GridSize = gs.GridSize := by
  simp [UpdateConnectivity]

theorem connOf_frame (gs gs' : GroundStation) (h1 : gs'.DronesPos = gs.DronesPos)
    (h2 : gs'.Down = gs.Down) (h3 : gs'.Position = gs.Position) :
    connOf gs' = connOf gs := by
  funext a b; simp [connOf, h1, h2, h3]

/-- Reachable matrices are symmetric with a false diagonal. -/
theorem Reachable.symm_diag {gs : GroundStation} (h : Reachable gs) :
    (∀ i j, gs.Graph i j = gs.Graph j i) ∧ ∀ i, gs.Graph i i = false := by
  induction h with
  | init gs h => exact ⟨fun i j => by rw [h, h], fun i => h i i⟩
  | update gs _ ih =>
    refine ⟨fun i j => ?_, fun i => ?_⟩
    · rw [UpdateConnectivity_graph, UpdateConnectivity_graph]
      by_cases h1 : i < j ∧ j ≤ gs.TotalDrones
      · have h2 : ¬ (j < i ∧ i ≤ gs.TotalDrones) := by omega
        rw [if_pos h1, if_neg h2, if_pos h1]
      · by_cases h2 : j < i ∧ i ≤ gs.TotalDrones
        · rw [if_neg h1, if_pos h2, if_pos h2]
        · rw [if_neg h1, if_neg h2, if_neg h2, if_neg h1]
          exact ih.1 i j
    · rw [UpdateConnectivity_graph]
      have h1 : ¬ (i < i ∧ i ≤ gs.TotalDrones) := by omega
      rw [if_neg h1, if_neg h1]
      exact ih.2 i
  | other gs gs' _ hG _ ih =>
    rw [hG]; exact ih

end Station

namespace Station

theorem distanceLtMaxDist_comm (p q : Int × Int) :
    distanceLtMaxDist p q = distanceLtMaxDist q p := by
  unfold distanceLtMaxDist
  have hx : wrap64 (q.1 - p.1) = -wrap64 (p.1 - q.1) ∨
      (wrap64 (q.1 - p.1) = wrap64 (p.1 - q.1)) := by unfold wrap64; omega
  have hy : wrap64 (q.2 - p.2) = -wrap64 (p.2 - q.2) ∨
      (wrap64 (q.2 - p.2) = wrap64 (p.2 - q.2)) := by unfold wrap64; omega
  have hx2 : wrap64 (q.1 - p.1) * wrap64 (q.1 - p.1) = wrap64 (p.1 - q.1) * wrap64 (p.1 - q.1) := by
    rcases hx with h | h <;> rw [h]; ring
  have hy2 : wrap64 (q.2 - p.2) * wrap64 (q.2 - p.2) = wrap64 (p.2 - q.2) * wrap64 (p.2 - q.2) := by
    rcases hy with h | h <;> rw [h]; ring
  simp only [hx2, hy2]

theorem distanceLtMaxDist_exact (p q : Int × Int) (h1 : isInt64 (p.1 - q.1))
    (h2 : isInt64 (p.2 - q.2)) :
    distanceLtMaxDist p q = true ↔
      (p.1 - q.1) * (p.1 - q.1) + (p.2 - q.2) * (p.2 - q.2) < 100 := by
  unfold distanceLtMaxDist
  rw [wrap64_id h1, wrap64_id h2]
  simp

/-- C5. In every state reachable from the all-false matrix, `UpdateConnectivity` returns
`true` exactly when some entry `Graph[i][j]` with `i, j ≤ TotalDrones` differs after the
call from before it; and a second call right after (positions and `Down` unchanged)
returns `false`. -/
theorem UpdateConnectivity_true_iff_changed (gs : GroundStation) (h : Reachable gs) :
    ((UpdateConnectivity gs).1 = true ↔
      ∃ i j, i ≤ gs.TotalDrones ∧ j ≤ gs.TotalDrones ∧
        (UpdateConnectivity gs).2.Graph i j ≠ gs.Graph i j) ∧
    (UpdateConnectivity (UpdateConnectivity gs).2).1 = false := by
  have hsym := (Reachable.symm_diag h).1
  constructor
  · rw [UpdateConnectivity_ret]
    constructor
    · rintro ⟨a, b, hab, hb, hne⟩
      refine ⟨a, b, by omega, hb, ?_⟩
      rw [UpdateConnectivity_graph, if_pos ⟨hab, hb⟩]
      exact fun h => hne h.symm
    · rintro ⟨i, j, hi, hj, hne⟩
      rw [UpdateConnectivity_graph] at hne
      by_cases h1 : i < j ∧ j ≤ gs.TotalDrones
      · rw [if_pos h1] at hne
        exact ⟨i, j, h1.1, h1.2, fun h => hne h.symm⟩
      · rw [if_neg h1] at hne
        by_cases h2 : j < i ∧ i ≤ gs.TotalDrones
        · rw [if_pos h2] at hne
          exact ⟨j, i, h2.1, h2.2, fun h => hne (by rw [← h, hsym])⟩
        · rw [if_neg h2] at hne
          exact absurd rfl hne
  · rw [Bool.eq_false_iff]
    intro hret
    rw [UpdateConnectivity_ret] at hret
    obtain ⟨a, b, hab, hb, hne⟩ := hret
    have hf := UpdateConnectivity_frame gs
    rw [hf.1] at hb
    rw [UpdateConnectivity_graph, if_pos ⟨hab, hb⟩,
      connOf_frame _ gs hf.2.1 hf.2.2.1 hf.2.2.2.1] at hne
    exact hne rfl

/-- Instance of C5 at a fresh station with two drones at the origin. -/
theorem UpdateConnectivity_true_iff_changed_witness :
    ((UpdateConnectivity stationFresh).1 = true ↔
      ∃ i j, i ≤ stationFresh.TotalDrones ∧ j ≤ stationFresh.TotalDrones ∧
        (UpdateConnectivity stationFresh).2.Graph i j ≠ stationFresh.Graph i j) ∧
    (UpdateConnectivity (UpdateConnectivity stationFresh).2).1 = false :=
  UpdateConnectivity_true_iff_changed stationFresh (Reachable.init _ (fun _ _ => rfl))

/-- C6 (as stated, refuted). With `Down[0]` set, a drone at the station's position is
linked to node 0 although the stated condition fails; and two drones at the opposite
ends of the `int` range are linked because their coordinate difference wraps to `-1`. -/
theorem UpdateConnectivity_link_despite_down_or_distance :
    (Reachable stationDownFlagged ∧
      (UpdateConnectivity stationDownFlagged).2.Graph 0 1 = true ∧
      ¬ linkedBySpec stationDownFlagged 0 1) ∧
    (Reachable stationFarApart ∧
      (UpdateConnectivity stationFarApart).2.Graph 1 2 = true ∧
      ¬ linkedBySpec stationFarApart 1 2) := by
  refine ⟨⟨Reachable.init _ (fun _ _ => rfl), by decide, by decide⟩,
    ⟨Reachable.init _ (fun _ _ => rfl), by decide, by decide⟩⟩

/-- C6 (amended). After `UpdateConnectivity` on a reachable state: for distinct drones
`i, j` in `1..TotalDrones`, `Graph[i][j]` holds exactly when neither is flagged in `Down`
and the distance test on their positions succeeds; for a drone `i`, `Graph[0][i]` and
`Graph[i][0]` hold exactly when `i` is not flagged (`Down[0]` is not consulted) and the
test succeeds against `gs.Position`; the diagonal is false; and the test is
`dx*dx + dy*dy < 100` whenever the coordinate differences fit in a Go `int`. -/
theorem UpdateConnectivity_links (gs : GroundStation) (h : Reachable gs) :
    (∀ i j, 1 ≤ i → 1 ≤ j → i ≤ gs.TotalDrones → j ≤ gs.TotalDrones → i ≠ j →
      ((UpdateConnectivity gs).2.Graph i j = true ↔
        gs.Down i = false ∧ gs.Down j = false ∧
          distanceLtMaxDist (gs.DronesPos i) (gs.DronesPos j) = true)) ∧
    (∀ i, 1 ≤ i → i ≤ gs.TotalDrones →
      ((UpdateConnectivity gs).2.Graph 0 i = true ↔
        gs.Down i = false ∧ distanceLtMaxDist gs.Position (gs.DronesPos i) = true) ∧
      (UpdateConnectivity gs).2.Graph i 0 = (UpdateConnectivity gs).2.Graph 0 i) ∧
    (∀ i, (UpdateConnectivity gs).2.Graph i i = false) ∧
    (∀ p q : Int × Int, isInt64 (p.1 - q.1) → isInt64 (p.2 - q.2) →
      (distanceLtMaxDist p q = true ↔
        (p.1 - q.1) * (p.1 - q.1) + (p.2 - q.2) * (p.2 - q.2) < 100)) := by
  have hR := Reachable.symm_diag (Reachable.update gs h)
  refine ⟨?_, ?_, hR.2, distanceLtMaxDist_exact⟩
  · intro i j hi hj hiT hjT hij
    rw [UpdateConnectivity_graph]
    by_cases h1 : i < j
    · rw [if_pos ⟨h1, hjT⟩]
      have : i ≠ 0 := by omega
      simp [connOf, this, and_assoc]
    · have h2 : j < i := by omega
      rw [if_neg (by omega), if_pos ⟨h2, hiT⟩]
      have : j ≠ 0 := by omega
      rw [distanceLtMaxDist_comm]
      simp only [connOf, this, if_false, Bool.and_eq_true, Bool.not_eq_true']
      tauto
  · intro i hi hiT
    refine ⟨?_, hR.1 i 0⟩
    rw [UpdateConnectivity_graph, if_pos ⟨by omega, hiT⟩]
    simp [connOf]

/-- Instance of C6 (amended) at a fresh station with two drones at the origin. -/
theorem UpdateConnectivity_links_witness :
    (UpdateConnectivity stationFresh).2.Graph 1 2 = true ↔
      stationFresh.Down 1 = false ∧ stationFresh.Down 2 = false ∧
        distanceLtMaxDist (stationFresh.DronesPos 1) (stationFresh.DronesPos 2) = true :=
  (UpdateConnectivity_links stationFresh (Reachable.init _ (fun _ _ => rfl))).1 1 2
    (by decide) (by decide) (by decide) (by decide) (by decide)

end Station

namespace Station

/-! ## Frontier search `GetClosest` -/

theorem inside_iff (gs : GroundStation) (i j : Int) :
    gs.inside i j = true ↔ 0 ≤ i ∧ 0 ≤ j ∧ i < gs.GridSize ∧ j < gs.GridSize := by
  simp [GroundStation.inside, and_assoc]

theorem hops_step (p h d : Int × Int) (hd : d ∈ directions) :
    hops p (h.1 + d.1, h.2 + d.2) = hops p h + 1 ∨ hops p (h.1 + d.1, h.2 + d.2) + 1 = hops p h := by
  simp only [directions, List.mem_cons, List.mem_singleton, List.not_mem_nil, or_false] at hd
  unfold hops
  rcases hd with rfl | rfl | rfl | rfl <;> simp only <;> omega

/-- Every cell other than the start has a grid neighbour one hop closer to the start. -/
theorem closer_neighbour (gs : GroundStation) (p c : Int × Int)
    (hp : gs.inside p.1 p.2 = true) (hc : gs.inside c.1 c.2 = true) (hne : c ≠ p) :
    ∃ c' : Int × Int, ∃ d ∈ directions, c = (c'.1 + d.1, c'.2 + d.2) ∧
      gs.inside c'.1 c'.2 = true ∧ hops p c' + 1 = hops p c := by
  rw [inside_iff] at hp hc
  have hne' : c.1 ≠ p.1 ∨ c.2 ≠ p.2 := by
    by_contra h
    push_neg at h
    exact hne (Prod.ext h.1 h.2)
  by_cases h1 : p.1 < c.1
  · refine ⟨(c.1 - 1, c.2), (1, 0), by simp [directions], ?_, ?_, ?_⟩
    · simp
    · rw [inside_iff]; simp only; omega
    · unfold hops; simp only; omega
  by_cases h2 : c.1 < p.1
  · refine ⟨(c.1 + 1, c.2), (-1, 0), by simp [directions], ?_, ?_, ?_⟩
    · simp
    · rw [inside_iff]; simp only; omega
    · unfold hops; simp only; omega
  by_cases h3 : p.2 < c.2
  · refine ⟨(c.1, c.2 - 1), (0, 1), by simp [directions], ?_, ?_, ?_⟩
    · simp
    · rw [inside_iff]; simp only; omega
    · unfold hops; simp only; omega
  · refine ⟨(c.1, c.2 + 1), (0, -1), by simp [directions], ?_, ?_, ?_⟩
    · simp
    · rw [inside_iff]; simp only; omega
    · unfold hops; simp only; omega

/-- Cells strictly closer to the start than everything queued have been marked. -/
theorem SearchInv.seen_below {gs : GroundStation} {p : Int × Int} {q : List (Int × Int)}
    {vis : Int → Int → Bool} (inv : SearchInv gs p q vis) (B : Nat)
    (hB : ∀ x ∈ q, B ≤ hops p x) :
    ∀ n, ∀ c : Int × Int, hops p c = n → gs.inside c.1 c.2 = true → n < B →
      vis c.1 c.2 = true := by
  intro n
  induction n using Nat.strong_induction_on with
  | _ n ih =>
    intro c hn hc hlt
    by_cases hcp : c = p
    · rw [hcp]; exact inv.start
    · have hp := inv.seenInside _ _ inv.start
      obtain ⟨c', d, hd, hcd, hc', hh⟩ := closer_neighbour gs p c hp hc hcp
      have hv := ih (hops p c') (by omega) c' rfl hc' (by omega)
      have hnq : (c'.1, c'.2) ∉ q := by
        intro hmem
        have := hB _ hmem
        simp only [Prod.mk.eta] at this
        omega
      have hcl := (inv.done c'.1 c'.2 hv hnq).2 d hd
      rw [hcd]
      rw [hcd] at hc
      exact hcl hc

end Station

namespace Station

theorem ExpandInv.of_search {gs : GroundStation} {p h : Int × Int} {q : List (Int × Int)}
    {vis : Int → Int → Bool} (inv : SearchInv gs p (h :: q) vis)
    (hv : gs.Grid h.1 h.2 = VISITED) : ExpandInv gs p h [] q vis := by
  have hsort := List.pairwise_cons.mp inv.sorted
  refine
    { queued := fun c hc => inv.queued c (List.mem_cons_of_mem _ hc)
      seenInside := inv.seenInside
      sorted := hsort.2
      level := fun c hc => ⟨hsort.1 c hc, inv.close c (List.mem_cons_of_mem _ hc) h
        (List.mem_cons_self _ _)⟩
      done := ?_
      start := inv.start
      headSeen := inv.queued h (List.mem_cons_self _ _)
      headVisited := hv
      headDirs := fun d hd => absurd hd (List.not_mem_nil d)
      below := ?_ }
  · intro a b hab hnq hne
    exact inv.done a b hab (by
      intro hmem
      rcases List.mem_cons.mp hmem with h1 | h1
      · exact hne h1
      · exact hnq h1)
  · intro a b hab hlt
    refine inv.seen_below (hops p h) ?_ _ (a, b) rfl hab hlt
    intro x hx
    rcases List.mem_cons.mp hx with h1 | h1
    · rw [h1]
    · exact hsort.1 x h1

theorem ExpandInv.to_search {gs : GroundStation} {p h : Int × Int} {q : List (Int × Int)}
    {vis : Int → Int → Bool} (inv : ExpandInv gs p h directions q vis) :
    SearchInv gs p q vis := by
  refine
    { queued := inv.queued
      seenInside := inv.seenInside
      sorted := inv.sorted
      close := fun a ha b hb => by
        have h1 := (inv.level a ha).2
        have h2 := (inv.level b hb).1
        omega
      done := ?_
      start := inv.start }
  intro a b hab hnq
  by_cases hh : (a, b) = h
  · subst hh
    exact ⟨inv.headVisited, inv.headDirs⟩
  · exact inv.done a b hab hnq hh

/-- One pass of the body of the `directions` loop keeps the invariant. -/
theorem ExpandInv.step_direction {gs : GroundStation} {p h : Int × Int} {ds q : List (Int × Int)}
    {vis : Int → Int → Bool} (inv : ExpandInv gs p h ds q vis) (d : Int × Int)
    (hd : d ∈ directions) :
    ExpandInv gs p h (ds ++ [d]) (visitDirection gs h.1 h.2 (q, vis) d).1
      (visitDirection gs h.1 h.2 (q, vis) d).2 := by
  unfold visitDirection
  simp only
  by_cases hg : (!gs.inside (h.1 + d.1) (h.2 + d.2) || vis (h.1 + d.1) (h.2 + d.2)) = true
  · rw [if_pos hg]
    refine { inv with headDirs := ?_ }
    intro d' hd' hin
    rcases List.mem_append.mp hd' with h1 | h1
    · exact inv.headDirs d' h1 hin
    · rw [List.mem_singleton] at h1
      subst h1
      rw [hin] at hg
      simpa using hg
  · rw [if_neg hg]
    dsimp only
    simp only [Bool.or_eq_true, Bool.not_eq_true', not_or, Bool.not_eq_false,
      Bool.not_eq_true] at hg
    obtain ⟨hin, hnv⟩ := hg
    have hlev : hops p (h.1 + d.1, h.2 + d.2) = hops p h + 1 := by
      rcases hops_step p h d hd with h1 | h1
      · exact h1
      · have := inv.below _ _ hin (by omega)
        rw [this] at hnv
        exact absurd hnv (by simp)
    have hmono : ∀ a b, vis a b = true →
        (if a = h.1 + d.1 ∧ b = h.2 + d.2 then true else vis a b) = true := by
      intro a b hab
      split_ifs
      · rfl
      · exact hab
    refine
      { queued := ?_
        seenInside := ?_
        sorted := ?_
        level := ?_
        done := ?_
        start := hmono _ _ inv.start
        headSeen := hmono _ _ inv.headSeen
        headVisited := inv.headVisited
        headDirs := ?_
        below := fun a b hab hlt => hmono _ _ (inv.below a b hab hlt) }
    · intro c hc
      rcases List.mem_append.mp hc with h1 | h1
      · exact hmono _ _ (inv.queued c h1)
      · rw [List.mem_singleton] at h1
        subst h1
        simp
    · intro a b hab
      by_cases hc : a = h.1 + d.1 ∧ b = h.2 + d.2
      · rw [hc.1, hc.2]; exact hin
      · rw [if_neg hc] at hab
        exact inv.seenInside a b hab
    · rw [List.pairwise_append]
      refine ⟨inv.sorted, List.pairwise_singleton _ _, ?_⟩
      intro a ha b hb
      rw [List.mem_singleton] at hb
      subst hb
      rw [hlev]
      exact (inv.level a ha).2
    · intro c hc
      rcases List.mem_append.mp hc with h1 | h1
      · exact inv.level c h1
      · rw [List.mem_singleton] at h1
        subst h1
        rw [hlev]
        omega
    · intro a b hab hnq hne
      have hnq1 : (a, b) ∉ q := fun hm => hnq (List.mem_append_left _ hm)
      have hnn : ¬ (a = h.1 + d.1 ∧ b = h.2 + d.2) := by
        rintro ⟨rfl, rfl⟩
        exact hnq (List.mem_append_right _ (List.mem_singleton.mpr rfl))
      rw [if_neg hnn] at hab
      obtain ⟨h1, h2⟩ := inv.done a b hab hnq1 hne
      exact ⟨h1, fun d' hd' hin' => hmono _ _ (h2 d' hd' hin')⟩
    · intro d' hd' hin'
      rcases List.mem_append.mp hd' with h1 | h1
      · exact hmono _ _ (inv.headDirs d' h1 hin')
      · rw [List.mem_singleton] at h1
        subst h1
        simp

theorem ExpandInv.foldl_directions {gs : GroundStation} {p h : Int × Int} :
    ∀ (ds' ds q : List (Int × Int)) (vis : Int → Int → Bool),
      (∀ d ∈ ds', d ∈ directions) → ExpandInv gs p h ds q vis →
      ExpandInv gs p h (ds ++ ds') (ds'.foldl (visitDirection gs h.1 h.2) (q, vis)).1
        (ds'.foldl (visitDirection gs h.1 h.2) (q, vis)).2 := by
  intro ds'
  induction ds' with
  | nil => intro ds q vis _ inv; simpa using inv
  | cons d ds' ih =>
    intro ds q vis hds inv
    have h1 := inv.step_direction d (hds d (List.mem_cons_self _ _))
    have h2 := ih (ds ++ [d]) _ _ (fun x hx => hds x (List.mem_cons_of_mem _ hx)) h1
    simpa using h2

end Station

namespace Station

theorem mem_unseen (gs : GroundStation) (vis : Int → Int → Bool) (c : Int × Int) :
    c ∈ unseen gs vis ↔ gs.inside c.1 c.2 = true ∧ vis c.1 c.2 = false := by
  unfold unseen
  rw [Finset.mem_filter, Finset.mem_product, Finset.mem_Ico, Finset.mem_Ico, inside_iff]
  constructor
  · rintro ⟨⟨⟨h1, h2⟩, h3, h4⟩, h5⟩; exact ⟨⟨h1, h3, h2, h4⟩, h5⟩
  · rintro ⟨⟨h1, h3, h2, h4⟩, h5⟩; exact ⟨⟨⟨h1, h2⟩, h3, h4⟩, h5⟩

theorem visitDirection_measure (gs : GroundStation) (i j : Int)
    (st : List (Int × Int) × (Int → Int → Bool)) (d : Int × Int) :
    (visitDirection gs i j st d).1.length + (unseen gs (visitDirection gs i j st d).2).card =
      st.1.length + (unseen gs st.2).card := by
  unfold visitDirection
  simp only
  by_cases hg : (!gs.inside (i + d.1) (j + d.2) || st.2 (i + d.1) (j + d.2)) = true
  · rw [if_pos hg]
  · rw [if_neg hg]
    simp only [Bool.or_eq_true, Bool.not_eq_true', not_or, Bool.not_eq_false,
      Bool.not_eq_true] at hg
    obtain ⟨hin, hnv⟩ := hg
    have hmem : (i + d.1, j + d.2) ∈ unseen gs st.2 := (mem_unseen _ _ _).mpr ⟨hin, hnv⟩
    have herase : unseen gs (fun a b => if a = i + d.1 ∧ b = j + d.2 then true else st.2 a b) =
        (unseen gs st.2).erase (i + d.1, j + d.2) := by
      ext c
      rw [Finset.mem_erase, mem_unseen, mem_unseen]
      by_cases hc : c.1 = i + d.1 ∧ c.2 = j + d.2
      · have : c = (i + d.1, j + d.2) := Prod.ext hc.1 hc.2
        simp [hc, this]
      · have : c ≠ (i + d.1, j + d.2) := fun h => hc (by rw [h]; exact ⟨rfl, rfl⟩)
        simp [hc, this]
    dsimp only
    rw [herase, Finset.card_erase_of_mem hmem, List.length_append, List.length_singleton]
    have := Finset.card_pos.mpr ⟨_, hmem⟩
    omega

theorem foldl_visitDirection_measure (gs : GroundStation) (i j : Int) :
    ∀ (ds : List (Int × Int)) (st : List (Int × Int) × (Int → Int → Bool)),
      (ds.foldl (visitDirection gs i j) st).1.length +
          (unseen gs (ds.foldl (visitDirection gs i j) st).2).card =
        st.1.length + (unseen gs st.2).card := by
  intro ds
  induction ds with
  | nil => intro st; rfl
  | cons d ds ih =>
    intro st
    rw [List.foldl_cons, ih, visitDirection_measure]

theorem SearchInv.head_min {gs : GroundStation} {p h : Int × Int} {q : List (Int × Int)}
    {vis : Int → Int → Bool} (inv : SearchInv gs p (h :: q) vis) :
    ∀ x ∈ h :: q, hops p h ≤ hops p x := by
  intro x hx
  rcases List.mem_cons.mp hx with h1 | h1
  · rw [h1]
  · exact (List.pairwise_cons.mp inv.sorted).1 x h1

/-- The search loop returns, and its result meets `ClosestSpec`, whenever the fuel
exceeds the queue length plus the number of unmarked cells. -/
theorem searchLoop_spec (gs : GroundStation) (p : Int × Int) :
    ∀ (fuel : Nat) (q : List (Int × Int)) (vis : Int → Int → Bool),
      SearchInv gs p q vis → q.length + (unseen gs vis).card < fuel →
      ∃ r, searchLoop gs fuel q vis = .ok r ∧ ClosestSpec gs p r := by
  intro fuel
  induction fuel with
  | zero => intro q vis _ h; omega
  | succ fuel ih =>
    intro q vis inv hfuel
    cases q with
    | nil =>
      refine ⟨(-1, -1), rfl, ?_⟩
      have hall : ∀ a b, gs.inside a b = true → gs.Grid a b = VISITED := by
        intro a b hab
        have hv := inv.seen_below (hops p (a, b) + 1) (fun x hx => absurd hx (List.not_mem_nil x))
          _ (a, b) rfl hab (by omega)
        exact (inv.done a b hv (List.not_mem_nil _)).1
      exact ⟨⟨fun _ => hall, fun _ => rfl⟩, fun h => absurd rfl h⟩
    | cons h q =>
      obtain ⟨i, j⟩ := h
      have hin : gs.inside i j = true :=
        inv.seenInside i j (inv.queued (i, j) (List.mem_cons_self _ _))
      by_cases hv : gs.Grid i j = VISITED
      · have hstep : searchLoop gs (fuel + 1) ((i, j) :: q) vis =
            searchLoop gs fuel (directions.foldl (visitDirection gs i j) (q, vis)).1
              (directions.foldl (visitDirection gs i j) (q, vis)).2 := by
          simp [searchLoop, hin, hv]
        rw [hstep]
        have e0 : ExpandInv gs p (i, j) [] q vis := ExpandInv.of_search inv hv
        have e1 := ExpandInv.foldl_directions directions [] q vis (fun d hd => hd) e0
        have hm := foldl_visitDirection_measure gs i j directions (q, vis)
        refine ih _ _ (ExpandInv.to_search (by simpa using e1)) ?_
        simp only [List.length_cons] at hfuel
        simp only at hm
        omega
      · refine ⟨(i, j), by simp [searchLoop, hin, hv], ?_⟩
        have hne : ((i, j) : Int × Int) ≠ (-1, -1) := by
          intro h
          have h1 := (Prod.mk.inj h).1
          rw [inside_iff] at hin
          omega
        refine ⟨⟨fun h => absurd h hne, fun hall => absurd (hall i j hin) hv⟩, fun _ =>
          ⟨hin, hv, ?_⟩⟩
        intro a b hab hnv
        by_contra hlt
        have hseen := inv.seen_below (hops p (i, j)) inv.head_min _ (a, b) rfl hab (by omega)
        have hnq : (a, b) ∉ (i, j) :: q := by
          intro hmem
          have := inv.head_min _ hmem
          omega
        exact hnv (inv.done a b hseen hnq).1

theorem SearchInv.at_origin (gs : GroundStation) (p : Int × Int)
    (hp : gs.inside p.1 p.2 = true) :
    SearchInv gs p [p] (fun a b => decide (a = p.1 ∧ b = p.2)) := by
  refine
    { queued := fun c hc => by rw [List.mem_singleton.mp hc]; simp
      seenInside := fun a b hab => by
        simp only [decide_eq_true_eq] at hab
        rw [hab.1, hab.2]; exact hp
      sorted := List.pairwise_singleton _ _
      close := fun a ha b hb => by
        rw [List.mem_singleton.mp ha, List.mem_singleton.mp hb]; omega
      done := fun a b hab hnq => by
        simp only [decide_eq_true_eq] at hab
        exact absurd (List.mem_singleton.mpr (Prod.ext hab.1 hab.2)) hnq
      start := by simp }

theorem unseen_initial_card (gs : GroundStation) (p : Int × Int)
    (hp : gs.inside p.1 p.2 = true) :
    (unseen gs (fun a b => decide (a = p.1 ∧ b = p.2))).card < gs.GridSize * gs.GridSize := by
  have hsub : unseen gs (fun a b => decide (a = p.1 ∧ b = p.2)) ⊂
      (Finset.Ico (0 : Int) gs.GridSize) ×ˢ (Finset.Ico (0 : Int) gs.GridSize) := by
    have hss : unseen gs (fun a b => decide (a = p.1 ∧ b = p.2)) ⊆
        (Finset.Ico (0 : Int) gs.GridSize) ×ˢ (Finset.Ico (0 : Int) gs.GridSize) :=
      Finset.filter_subset _ _
    rw [Finset.ssubset_iff_of_subset hss]
    refine ⟨p, ?_, ?_⟩
    · rw [inside_iff] at hp
      rw [Finset.mem_product, Finset.mem_Ico, Finset.mem_Ico]
      omega
    · rw [mem_unseen]; simp
  have := Finset.card_lt_card hsub
  rw [Finset.card_product, Int.card_Ico] at this
  simpa using this

/-- The frontier search returns for every valid drone id whose recorded position is a
grid cell, and its result meets `ClosestSpec`. -/
theorem GetClosest_spec (gs : GroundStation) (id : Int)
    (hid : 0 ≤ id ∧ id ≤ gs.TotalDrones)
    (hp : gs.inside (gs.DronesPos id.toNat).1 (gs.DronesPos id.toNat).2 = true) :
    ∃ r, GetClosest gs id = .ok r ∧ ClosestSpec gs (gs.DronesPos id.toNat) r := by
  unfold GetClosest
  rw [if_neg (not_not.mpr hid)]
  simp only [hp, Bool.not_true, Bool.false_eq_true, if_false]
  refine searchLoop_spec gs _ _ _ _ (SearchInv.at_origin gs _ hp) ?_
  have := unseen_initial_card gs _ hp
  simp only [List.length_singleton]
  omega

end Station

namespace Station

/-! ## Arrival reports and completion -/

theorem CheckForCompletition_success (gs : GroundStation) :
    Out.success ∈ CheckForCompletition gs ↔
      ∀ a b, gs.inside a b = true → gs.Grid a b = VISITED := by
  have hall : ((List.range gs.GridSize).all
      (fun i => (List.range gs.GridSize).all (fun j => gs.Grid i j == VISITED))) = true ↔
      ∀ a b, gs.inside a b = true → gs.Grid a b = VISITED := by
    simp only [List.all_eq_true, List.mem_range, beq_iff_eq]
    constructor
    · intro h a b hab
      rw [inside_iff] at hab
      have := h a.toNat (by omega) b.toNat (by omega)
      rwa [Int.toNat_of_nonneg hab.1, Int.toNat_of_nonneg hab.2.1] at this
    · intro h i hi j hj
      exact h i j (by rw [inside_iff]; omega)
  unfold CheckForCompletition
  by_cases hc : ((List.range gs.GridSize).all
      (fun i => (List.range gs.GridSize).all (fun j => gs.Grid i j == VISITED))) = true
  · rw [if_pos hc]
    simp only [List.mem_singleton, true_iff]
    exact hall.mp hc
  · rw [if_neg hc]
    simp only [List.not_mem_nil, false_iff]
    exact fun h => hc (hall.mpr h)

theorem CheckForCompletition_count (gs : GroundStation) :
    (CheckForCompletition gs).count Out.success ≤ 1 := by
  unfold CheckForCompletition
  split_ifs <;> simp

theorem markVisited_inside (gs : GroundStation) (i j a b : Int) :
    (markVisited gs i j).inside a b = gs.inside a b := rfl

/-- A report for a grid cell from a valid drone whose recorded position is a grid cell
is handled without a fault; `SUCCESS` is written exactly when the grid is complete once
the cell is marked, and at most once. -/
theorem ProcessReached_ok (gs : GroundStation) (i j id : Int)
    (hij : gs.inside i j = true) (hid : 0 ≤ id ∧ id ≤ gs.TotalDrones)
    (hp : gs.inside (gs.DronesPos id.toNat).1 (gs.DronesPos id.toNat).2 = true) :
    ∃ out, ProcessReached gs i j id = .ok (markVisited gs i j, out) ∧
      (Out.success ∈ out ↔
        ∀ a b, gs.inside a b = true → (markVisited gs i j).Grid a b = VISITED) ∧
      out.count Out.success ≤ 1 := by
  obtain ⟨r, hr, _⟩ := GetClosest_spec (markVisited gs i j) id hid hp
  have hs := CheckForCompletition_success (markVisited gs i j)
  have hc := CheckForCompletition_count (markVisited gs i j)
  unfold ProcessReached
  simp only [hij, Bool.not_true, Bool.false_eq_true, if_false, hr]
  by_cases hn : r.1 ≠ -1
  · rw [if_pos hn]
    unfold SendMessage
    have hid' : 0 ≤ id ∧ id ≤ ((markVisited gs i j).TotalDrones : Int) := hid
    rw [if_neg (not_not.mpr hid')]
    by_cases h0 : id = 0
    · rw [if_pos h0]
      exact ⟨_, rfl, by simpa using hs, by simpa using hc⟩
    · rw [if_neg h0]
      refine ⟨_, rfl, ?_, ?_⟩
      · rw [List.mem_append]
        simp only [List.mem_singleton, reduceCtorEq, or_false]
        exact hs
      · rw [List.count_append]
        simp only [List.count_cons, List.count_nil, beq_iff_eq, reduceCtorEq, if_false]
        omega
  · rw [if_neg hn]
    exact ⟨_, rfl, hs, hc⟩

theorem marked_frame (rs : List (Int × Int × Int)) :
    ∀ gs : GroundStation, (marked gs rs).GridSize = gs.GridSize ∧
      (marked gs rs).TotalDrones = gs.TotalDrones ∧ (marked gs rs).DronesPos = gs.DronesPos := by
  induction rs with
  | nil => intro gs; exact ⟨rfl, rfl, rfl⟩
  | cons r rs ih =>
    intro gs
    exact ih (markVisited gs r.1 r.2.1)

theorem marked_grid (rs : List (Int × Int × Int)) :
    ∀ (gs : GroundStation) (a b : Int), (marked gs rs).Grid a b =
      if (a, b) ∈ rs.map (fun r => (r.1, r.2.1)) then VISITED else gs.Grid a b := by
  induction rs with
  | nil => intro gs a b; simp [marked]
  | cons r rs ih =>
    intro gs a b
    have h : marked gs (r :: rs) = marked (markVisited gs r.1 r.2.1) rs := rfl
    rw [h, ih]
    simp only [List.map_cons, List.mem_cons, Prod.mk.injEq, markVisited]
    by_cases h1 : (a, b) ∈ rs.map (fun r => (r.1, r.2.1))
    · simp [h1]
    · by_cases h2 : a = r.1 ∧ b = r.2.1
      · simp [h2]
      · simp [h1, h2]

/-- The datagrams written by a run of `ProcessReached`, from any starting grid. -/
theorem runReached_general :
    ∀ (rs : List (Int × Int × Int)) (gs : GroundStation),
      (∀ r ∈ rs, gs.inside r.1 r.2.1 = true ∧ (0 ≤ r.2.2 ∧ r.2.2 ≤ gs.TotalDrones) ∧
        gs.inside (gs.DronesPos r.2.2.toNat).1 (gs.DronesPos r.2.2.toNat).2 = true) →
      ∃ outs, runReached gs rs = .ok (marked gs rs, outs) ∧ outs.length = rs.length ∧
        ∀ k out, outs[k]? = some out →
          (Out.success ∈ out ↔ ∀ a b, gs.inside a b = true →
            (marked gs (rs.take (k + 1))).Grid a b = VISITED) ∧
          out.count Out.success ≤ 1 := by
  intro rs
  induction rs with
  | nil =>
    intro gs _
    exact ⟨[], rfl, rfl, fun k out h => by simp at h⟩
  | cons r rs ih =>
    intro gs hrs
    obtain ⟨i, j, id⟩ := r
    obtain ⟨hij, hid, hp⟩ := hrs (i, j, id) (List.mem_cons_self _ _)
    obtain ⟨out, hout, hsucc, hcount⟩ := ProcessReached_ok gs i j id hij hid hp
    obtain ⟨outs, hrun, hlen, hk⟩ := ih (markVisited gs i j)
      (fun r hr => hrs r (List.mem_cons_of_mem _ hr))
    refine ⟨out :: outs, ?_, by simp [hlen], ?_⟩
    · simp only [runReached, hout, hrun]
      rfl
    · intro k o ho
      cases k with
      | zero =>
        simp only [List.getElem?_cons_zero, Option.some.injEq] at ho
        subst ho
        exact ⟨hsucc, hcount⟩
      | succ k =>
        simp only [List.getElem?_cons_succ] at ho
        exact hk k o ho

end Station

namespace Station

/-- C1. For every drone id in `0..TotalDrones` whose recorded position is a cell of the
grid (so the grid size is at least 1), `GetClosest` returns; the result is the sentinel
`(-1,-1)` exactly when every cell of the grid is `VISITED`; and when some cell is not
`VISITED` the result is a cell of the grid that is not `VISITED` and whose hop
(Manhattan) distance from the recorded position is minimal among all such cells. -/
theorem GetClosest_nearest_unvisited (gs : GroundStation) (id : Int)
    (hid : 0 ≤ id ∧ id ≤ gs.TotalDrones)
    (hp : gs.inside (gs.DronesPos id.toNat).1 (gs.DronesPos id.toNat).2 = true) :
    1 ≤ gs.GridSize ∧
    ∃ r, GetClosest gs id = .ok r ∧
      (r = (-1, -1) ↔ ∀ a b, gs.inside a b = true → gs.Grid a b = VISITED) ∧
      ((∃ a b, gs.inside a b = true ∧ gs.Grid a b ≠ VISITED) →
        gs.inside r.1 r.2 = true ∧ gs.Grid r.1 r.2 ≠ VISITED ∧
          ∀ a b, gs.inside a b = true → gs.Grid a b ≠ VISITED →
            (r.1 - (gs.DronesPos id.toNat).1).natAbs + (r.2 - (gs.DronesPos id.toNat).2).natAbs
              ≤ (a - (gs.DronesPos id.toNat).1).natAbs
                + (b - (gs.DronesPos id.toNat).2).natAbs) := by
  refine ⟨by rw [inside_iff] at hp; omega, ?_⟩
  obtain ⟨r, hr, hiff, hcell⟩ := GetClosest_spec gs id hid hp
  refine ⟨r, hr, hiff, ?_⟩
  rintro ⟨a, b, hab, hnv⟩
  exact hcell (fun h => hnv (hiff.mp h a b hab))

/-- Instance of C1: drone 1 at the origin of a fresh `2 × 2` grid. -/
theorem GetClosest_nearest_unvisited_witness :
    ∃ r, GetClosest stationFresh 1 = .ok r ∧
      (r = (-1, -1) ↔ ∀ a b, stationFresh.inside a b = true → stationFresh.Grid a b = VISITED) :=
  let ⟨r, h1, h2, _⟩ := (GetClosest_nearest_unvisited stationFresh 1 (by decide) (by decide)).2
  ⟨r, h1, h2⟩

/-- C4 (as stated, refuted). On a fresh `1 × 1` grid the report of cell `(0,0)` completes
the grid and writes `SUCCESS`; the same report arriving again writes `SUCCESS` again:
two `SUCCESS` datagrams in one run. -/
theorem runReached_success_twice :
    (∀ a b, stationUnit.inside a b = true → stationUnit.Grid a b ≠ VISITED) ∧
    (runReached stationUnit [(0, 0, 1), (0, 0, 1)]).toOption.map (fun r => r.2)
      = some [[Out.success], [Out.success]] ∧
    (runReached stationUnit [(0, 0, 1), (0, 0, 1)]).toOption.map (fun r => successCount r.2)
      = some 2 := by
  refine ⟨?_, by decide, by decide⟩
  intro a b _
  show (0 : Int) ≠ VISITED
  decide

/-- C4 (amended). From an all-unvisited grid, every sequence of reports of grid cells by
valid drones whose recorded positions are grid cells is handled without a fault; the
call for report `k` writes `SUCCESS` exactly when every grid cell is `VISITED` once the
cells of reports `0..k` are marked, that is when every grid cell is among those cells,
and at most once per call; so `SUCCESS` is written on the report that completes the grid
and on every later report. -/
theorem runReached_success_when_complete (gs : GroundStation) (rs : List (Int × Int × Int))
    (h0 : ∀ a b, gs.inside a b = true → gs.Grid a b ≠ VISITED)
    (hrs : ∀ r ∈ rs, gs.inside r.1 r.2.1 = true ∧ (0 ≤ r.2.2 ∧ r.2.2 ≤ gs.TotalDrones) ∧
      gs.inside (gs.DronesPos r.2.2.toNat).1 (gs.DronesPos r.2.2.toNat).2 = true) :
    ∃ outs, runReached gs rs = .ok (marked gs rs, outs) ∧ outs.length = rs.length ∧
      (∀ k out, outs[k]? = some out →
        (Out.success ∈ out ↔ ∀ a b, gs.inside a b = true →
          (marked gs (rs.take (k + 1))).Grid a b = VISITED) ∧
        (Out.success ∈ out ↔ ∀ a b, gs.inside a b = true →
          (a, b) ∈ (rs.take (k + 1)).map (fun r => (r.1, r.2.1))) ∧
        out.count Out.success ≤ 1) ∧
      (∀ (k k' : Nat) (out out' : List Out), k ≤ k' → outs[k]? = some out →
        outs[k']? = some out' → Out.success ∈ out → Out.success ∈ out') := by
  obtain ⟨outs, hrun, hlen, hk⟩ := runReached_general rs gs hrs
  have hcover : ∀ k, (∀ a b, gs.inside a b = true →
        (marked gs (rs.take (k + 1))).Grid a b = VISITED) ↔
      ∀ a b, gs.inside a b = true → (a, b) ∈ (rs.take (k + 1)).map (fun r => (r.1, r.2.1)) := by
    intro k
    constructor
    · intro h a b hab
      have := h a b hab
      rw [marked_grid] at this
      by_contra hn
      rw [if_neg hn] at this
      exact h0 a b hab this
    · intro h a b hab
      rw [marked_grid, if_pos (h a b hab)]
  refine ⟨outs, hrun, hlen, ?_, ?_⟩
  · intro k out ho
    obtain ⟨h1, h2⟩ := hk k out ho
    exact ⟨h1, h1.trans (hcover k), h2⟩
  · intro k k' out out' hkk ho ho' hs
    rw [(hk k' out' ho').1, hcover]
    intro a b hab
    have := ((hk k out ho).1.trans (hcover k)).mp hs a b hab
    rw [List.mem_map] at this ⊢
    obtain ⟨r, hr, hrc⟩ := this
    exact ⟨r, (List.take_subset_take_left rs (by omega)) hr, hrc⟩

/-- Instance of C4 (amended): the same cell of a `1 × 1` grid reported twice. -/
theorem runReached_success_when_complete_witness :
    ∃ outs, runReached stationUnit [(0, 0, 1), (0, 0, 1)]
        = .ok (marked stationUnit [(0, 0, 1), (0, 0, 1)], outs) ∧
      outs.length = 2 :=
  let ⟨outs, h1, h2, _⟩ := runReached_success_when_complete stationUnit
    [(0, 0, 1), (0, 0, 1)] (by intro a b _; show (0 : Int) ≠ VISITED; decide) (by decide)
  ⟨outs, h1, h2⟩

/-- C10 (as stated, refuted). Well-formed datagrams fault the handler with an index out
of range: a position report of drone 5 at a station with drones `1..2`, and an arrival
report for cell `(7,7)` of a `2 × 2` grid. -/
theorem handleDatagram_index_out_of_range :
    Sscanf3 "(POS,5,0,0)" "(POS,%d,%d,%d)" = some (5, 0, 0) ∧
    faultOf (handleDatagram Sscanf3 stationFresh "(POS,5,0,0)") = some Fault.indexOutOfRange ∧
    Sscanf3 "(REACHED,1,7,7)" "(REACHED,%d,%d,%d)" = some (1, 7, 7) ∧
    faultOf (handleDatagram Sscanf3 stationFresh "(REACHED,1,7,7)")
      = some Fault.indexOutOfRange := by
  decide

/-- C10 (amended). Whatever `fmt.Sscanf` does: a datagram matching neither pattern leaves
the station unchanged and writes nothing; a position report with id in `0..TotalDrones`
only stores the position; an arrival report with id in `0..TotalDrones`, for a cell of
the grid, from a drone whose recorded position is a cell of the grid, marks that cell
and is handled without any index out of range. -/
theorem handleDatagram_safe_in_range (scan : String → String → Option (Int × Int × Int))
    (gs : GroundStation) (message : String) :
    (scan message "(POS,%d,%d,%d)" = none → scan message "(REACHED,%d,%d,%d)" = none →
      handleDatagram scan gs message = .ok (gs, [])) ∧
    (∀ id x y, message.length > 0 → scan message "(POS,%d,%d,%d)" = some (id, x, y) →
      0 ≤ id ∧ id ≤ gs.TotalDrones →
      handleDatagram scan gs message = .ok (setDronePos gs id.toNat x y, [])) ∧
    (∀ id x y, message.length > 0 → scan message "(POS,%d,%d,%d)" = none →
      scan message "(REACHED,%d,%d,%d)" = some (id, x, y) →
      0 ≤ id ∧ id ≤ gs.TotalDrones → gs.inside x y = true →
      gs.inside (gs.DronesPos id.toNat).1 (gs.DronesPos id.toNat).2 = true →
      ∃ out, handleDatagram scan gs message = .ok (markVisited gs x y, out)) := by
  refine ⟨?_, ?_, ?_⟩
  · intro h1 h2
    unfold handleDatagram
    rw [h1, h2]
    simp
  · intro id x y hlen h1 hid
    unfold handleDatagram
    rw [if_pos hlen, h1]
    simp only
    rw [if_neg (not_not.mpr hid)]
  · intro id x y hlen h1 h2 hid hxy hp
    obtain ⟨out, hout, _⟩ := ProcessReached_ok gs x y id hxy hid hp
    refine ⟨out, ?_⟩
    unfold handleDatagram
    rw [if_pos hlen, h1, h2]
    exact hout

/-- Instance of C10 (amended): an arrival report for cell `(1,1)` by drone 1. -/
theorem handleDatagram_safe_in_range_witness :
    ∃ out, handleDatagram Sscanf3 stationFresh "(REACHED,1,1,1)"
      = .ok (markVisited stationFresh 1 1, out) :=
  (handleDatagram_safe_in_range Sscanf3 stationFresh "(REACHED,1,1,1)").2.2 1 1 1
    (by decide) (by decide) (by decide) (by decide) (by decide) (by decide)

end Station

namespace Simulator

/-! ## Association-list maps -/

theorem lookup_cons_ite {β : Type} (a : Int) (b : β) (m : List (Int × β)) (k' : Int) :
    List.lookup k' ((a, b) :: m) = if k' = a then some b else m.lookup k' := by
  by_cases h : k' = a
  · subst h
    simp [List.lookup]
  · have h' : (k' == a) = false := by simpa using h
    simp [List.lookup, h', h]

theorem lookup_mapSet {β : Type} (m : List (Int × β)) (k : Int) (v : β) (k' : Int) :
    (mapSet m k v).lookup k' = if k' = k then some v else m.lookup k' := by
  induction m with
  | nil =>
    simp only [mapSet, lookup_cons_ite, List.lookup_nil]
  | cons e m ih =>
    obtain ⟨a, b⟩ := e
    by_cases hak : a = k
    · subst hak
      simp only [mapSet, if_true, lookup_cons_ite]
      split_ifs <;> rfl
    · simp only [mapSet, hak, if_false, lookup_cons_ite, ih]
      by_cases h : k' = k
      · have : ¬ k' = a := fun h' => hak (by rw [← h', h])
        rw [if_neg this, if_pos h, if_pos h]
      · rw [if_neg h, if_neg h]

theorem adj_mapSet (g : List (Int × List Int)) (k : Int) (v : List Int) (k' : Int) :
    adj (mapSet g k v) k' = if k' = k then v else adj g k' := by
  unfold adj
  rw [lookup_mapSet]
  split_ifs <;> rfl

/-! ## Adjacency lists built by the simulator -/

theorem mem_adj_connectStep {F : Type} (ops : Float64Ops F) (d1 d2 : Int × (F × F))
    (g : List (Int × List Int)) (i j : Int) :
    j ∈ adj (connectStep ops d1 g d2) i ↔
      j ∈ adj g i ∨ (i = d1.1 ∧ j = d2.1 ∧ d1.1 ≠ d2.1 ∧ ops.leMaxDist (distance ops d1.2 d2.2) = true) := by
  unfold connectStep
  by_cases hc : d1.1 ≠ d2.1 ∧ ops.leMaxDist (distance ops d1.2 d2.2) = true
  · rw [if_pos hc, adj_mapSet]
    by_cases hi : i = d1.1
    · rw [if_pos hi, List.mem_append, List.mem_singleton, hi]
      constructor
      · rintro (h | h)
        · exact Or.inl h
        · exact Or.inr ⟨rfl, h, hc⟩
      · rintro (h | ⟨_, h, _⟩)
        · exact Or.inl h
        · exact Or.inr h
    · rw [if_neg hi]
      constructor
      · exact Or.inl
      · rintro (h | ⟨h, _⟩)
        · exact h
        · exact absurd h hi
  · rw [if_neg hc]
    constructor
    · exact Or.inl
    · rintro (h | ⟨_, _, h⟩)
      · exact h
      · exact absurd h hc

theorem mem_adj_inner {F : Type} (ops : Float64Ops F) (d1 : Int × (F × F)) (i j : Int) :
    ∀ (l : List (Int × (F × F))) (g : List (Int × List Int)),
      j ∈ adj (l.foldl (connectStep ops d1) g) i ↔
        j ∈ adj g i ∨ (i = d1.1 ∧ ∃ d2 ∈ l, j = d2.1 ∧ d1.1 ≠ d2.1 ∧ ops.leMaxDist (distance ops d1.2 d2.2) = true) := by
  intro l
  induction l with
  | nil => intro g; simp
  | cons d l ih =>
    intro g
    rw [List.foldl_cons, ih, mem_adj_connectStep]
    simp only [List.mem_cons, exists_eq_or_imp]
    tauto

theorem mem_adj_outer {F : Type} (ops : Float64Ops F) (inner : Int → List (Int × (F × F)))
    (i j : Int) :
    ∀ (outer : List (Int × (F × F))) (g : List (Int × List Int)),
      j ∈ adj (outer.foldl (fun g d1 => (inner d1.1).foldl (connectStep ops d1) g) g) i ↔
        j ∈ adj g i ∨ ∃ d1 ∈ outer, i = d1.1 ∧
          ∃ d2 ∈ inner d1.1, j = d2.1 ∧ d1.1 ≠ d2.1 ∧ ops.leMaxDist (distance ops d1.2 d2.2) = true := by
  intro outer
  induction outer with
  | nil => intro g; simp
  | cons d outer ih =>
    intro g
    rw [List.foldl_cons, ih, mem_adj_inner]
    constructor
    · rintro ((h | ⟨h1, h2⟩) | ⟨d1, hd1, h⟩)
      · exact Or.inl h
      · exact Or.inr ⟨d, List.mem_cons_self _ _, h1, h2⟩
      · exact Or.inr ⟨d1, List.mem_cons_of_mem _ hd1, h⟩
    · rintro (h | ⟨d1, hd1, h1, h2⟩)
      · exact Or.inl (Or.inl h)
      · rcases List.mem_cons.mp hd1 with rfl | hd1
        · exact Or.inl (Or.inr ⟨h1, h2⟩)
        · exact Or.inr ⟨d1, hd1, h1, h2⟩

theorem mem_adj_buildGraph {F : Type} (ops : Float64Ops F) (drones : List (Int × (F × F)))
    (outer : List (Int × (F × F))) (inner : Int → List (Int × (F × F)))
    (houter : outer.Perm drones) (hinner : ∀ k, (inner k).Perm drones) (i j : Int) :
    j ∈ adj (buildGraph ops outer inner) i ↔
      ∃ p q, (i, p) ∈ drones ∧ (j, q) ∈ drones ∧ i ≠ j ∧ ops.leMaxDist (distance ops p q) = true := by
  unfold buildGraph
  rw [mem_adj_outer]
  simp only [adj, List.lookup_nil, Option.getD_none, List.not_mem_nil, false_or]
  constructor
  · rintro ⟨d1, h1, rfl, d2, h2, rfl, hne, hn⟩
    exact ⟨d1.2, d2.2, houter.mem_iff.mp h1, (hinner _).mem_iff.mp h2, hne, hn⟩
  · rintro ⟨p, q, h1, h2, hne, hn⟩
    exact ⟨(i, p), houter.mem_iff.mpr h1, rfl, (j, q), (hinner _).mem_iff.mpr h2, rfl, hne, hn⟩

end Simulator

namespace Simulator

/-! ## Breadth-first search of the simulator -/

theorem appendSlice_spec (grow : Nat → Nat → Nat) (heap : List (List Int)) (s : Slice)
    (x : Int) (hp : s.ptr < heap.length) (hl : s.len ≤ (heap.getD s.ptr []).length) :
    (appendSlice grow heap s x).2.len = s.len + 1 ∧
    (appendSlice grow heap s x).2.ptr < (appendSlice grow heap s x).1.length ∧
    (appendSlice grow heap s x).2.len ≤
      ((appendSlice grow heap s x).1.getD (appendSlice grow heap s x).2.ptr []).length ∧
    heap.length ≤ (appendSlice grow heap s x).1.length ∧
    ∀ p, p < heap.length →
      ((appendSlice grow heap s x).1.getD p []).length = (heap.getD p []).length := by
  unfold appendSlice
  simp only
  by_cases hc : s.len < (heap.getD s.ptr []).length
  · rw [if_pos hc]
    refine ⟨rfl, by simpa using hp, ?_, by simp, ?_⟩
    · simp only [List.getD_eq_getElem?_getD, List.getElem?_set, hp, if_true,
        Option.getD_some, List.length_set]
      simp only [List.getD_eq_getElem?_getD] at hc
      omega
    · intro p hpl
      simp only [List.getD_eq_getElem?_getD, List.getElem?_set]
      by_cases hps : s.ptr = p
      · subst hps
        simp [hp]
      · simp [hps]
  · rw [if_neg hc]
    refine ⟨rfl, by simp, ?_, by simp, ?_⟩
    · simp only [List.getD_eq_getElem?_getD, List.getElem?_append_right (le_refl _),
        Nat.sub_self, List.getElem?_cons_zero, Option.getD_some, List.length_append,
        List.length_take, List.length_singleton, List.length_replicate]
      simp only [List.getD_eq_getElem?_getD] at hc hl
      omega
    · intro p hpl
      simp only [List.getD_eq_getElem?_getD, List.getElem?_append_left hpl]

theorem pathOf_visit (grow : Nat → Nat → Nat) (u : Int) (st : SearchState) (n : Int)
    (hn : n ∉ st.visited) (x : Int) :
    pathOf (visit grow u st n) x =
      if x = n then (appendSlice grow st.heap (pathOf st u) u).2 else pathOf st x := by
  unfold visit
  rw [if_neg hn]
  simp only [pathOf, lookup_mapSet]
  split_ifs <;> rfl

end Simulator

namespace Simulator

theorem visit_of_not_mem (grow : Nat → Nat → Nat) (u : Int) (st : SearchState) (n : Int)
    (hn : n ∉ st.visited) :
    (visit grow u st n).queue = st.queue ++ [n] ∧
    (visit grow u st n).visited = n :: st.visited ∧
    (visit grow u st n).paths =
      mapSet st.paths n (appendSlice grow st.heap (pathOf st u) u).2 ∧
    (visit grow u st n).heap = (appendSlice grow st.heap (pathOf st u) u).1 := by
  unfold visit
  rw [if_neg hn]
  exact ⟨rfl, rfl, rfl, rfl⟩

/-- One pass of the body of the neighbour loop keeps the invariant. -/
theorem BfsMid.step_neighbour {g : List (Int × List Int)} {s u : Int} {ns : List Int}
    {st : SearchState} (grow : Nat → Nat → Nat) (inv : BfsMid g s u ns st) (n : Int)
    (hn : n ∈ adj g u) : BfsMid g s u (ns ++ [n]) (visit grow u st n) := by
  by_cases hv : n ∈ st.visited
  · have hsame : visit grow u st n = st := by unfold visit; rw [if_pos hv]
    rw [hsame]
    refine { inv with uDirs := ?_ }
    intro m hm
    rcases List.mem_append.mp hm with h1 | h1
    · exact inv.uDirs m h1
    · rw [List.mem_singleton] at h1
      subst h1
      refine ⟨hv, ?_⟩
      by_cases hmu : m = u
      · rw [hmu]; omega
      · by_cases hq : m ∈ st.queue
        · exact (inv.level m hq).2
        · have := (inv.done m hv hq hmu).2
          omega
  · obtain ⟨hq, hvs, hps, hhp⟩ := visit_of_not_mem grow u st n hv
    have hu := inv.heapWf u inv.uVisited
    obtain ⟨hA1, hA2, hA3, hA4, hA5⟩ := appendSlice_spec grow st.heap (pathOf st u) u hu.1 hu.2
    have hpath := pathOf_visit grow u st n hv
    have hold : ∀ x ∈ st.visited, pathOf (visit grow u st n) x = pathOf st x := by
      intro x hx
      have hxn : x ≠ n := fun h => hv (by rw [← h]; exact hx)
      rw [hpath, if_neg hxn]
    have hnew : pathOf (visit grow u st n) n = (appendSlice grow st.heap (pathOf st u) u).2 := by
      rw [hpath, if_pos rfl]
    have hlold : ∀ x ∈ st.visited, lev (visit grow u st n) x = lev st x := by
      intro x hx; unfold lev; rw [hold x hx]
    have hlnew : lev (visit grow u st n) n = lev st u + 1 := by
      unfold lev; rw [hnew, hA1]
    have hlu := hlold u inv.uVisited
    refine
      { keys := ?_, walk := ?_, queued := ?_, sorted := ?_, level := ?_, uVisited := ?_,
        done := ?_, uDirs := ?_, start := ?_, heapWf := ?_ }
    · intro k
      rw [hvs, hps, lookup_mapSet, List.mem_cons]
      by_cases hk : k = n
      · simp [hk]
      · rw [if_neg hk, ← inv.keys k]
        simp [hk]
    · intro k hk
      rw [hvs, List.mem_cons] at hk
      rcases hk with rfl | hk
      · rw [hlnew]
        exact Walk.snoc (inv.walk u inv.uVisited) hn
      · rw [hlold k hk]
        exact inv.walk k hk
    · intro k hk
      rw [hq, List.mem_append, List.mem_singleton] at hk
      rw [hvs, List.mem_cons]
      rcases hk with hk | hk
      · exact Or.inr (inv.queued k hk)
      · exact Or.inl hk
    · rw [hq, List.pairwise_append]
      refine ⟨?_, List.pairwise_singleton _ _, ?_⟩
      · refine inv.sorted.imp_of_mem ?_
        intro a b ha hb hab
        rw [hlold a (inv.queued a ha), hlold b (inv.queued b hb)]
        exact hab
      · intro a ha b hb
        rw [List.mem_singleton] at hb
        subst hb
        rw [hlold a (inv.queued a ha), hlnew]
        exact (inv.level a ha).2
    · intro x hx
      rw [hq, List.mem_append, List.mem_singleton] at hx
      rw [hlu]
      rcases hx with hx | hx
      · rw [hlold x (inv.queued x hx)]
        exact inv.level x hx
      · subst hx
        rw [hlnew]
        omega
    · rw [hvs]
      exact List.mem_cons_of_mem _ inv.uVisited
    · intro k hk hkq hku
      rw [hq, List.mem_append, List.mem_singleton] at hkq
      rw [hvs, List.mem_cons] at hk
      have hkn : k ≠ n := fun h => hkq (Or.inr h)
      have hk' : k ∈ st.visited := hk.resolve_left hkn
      obtain ⟨h1, h2⟩ := inv.done k hk' (fun h => hkq (Or.inl h)) hku
      rw [hlold k hk', hlu]
      refine ⟨fun m hm => ?_, h2⟩
      obtain ⟨h3, h4⟩ := h1 m hm
      rw [hvs, hlold m h3]
      exact ⟨List.mem_cons_of_mem _ h3, h4⟩
    · intro m hm
      rw [hvs, hlu]
      rcases List.mem_append.mp hm with h1 | h1
      · obtain ⟨h3, h4⟩ := inv.uDirs m h1
        rw [hlold m h3]
        exact ⟨List.mem_cons_of_mem _ h3, h4⟩
      · rw [List.mem_singleton] at h1
        subst h1
        rw [hlnew]
        exact ⟨List.mem_cons_self _ _, le_refl _⟩
    · rw [hvs, hlold s inv.start.1]
      exact ⟨List.mem_cons_of_mem _ inv.start.1, inv.start.2⟩
    · intro k hk
      rw [hvs, List.mem_cons] at hk
      rw [hhp]
      rcases hk with rfl | hk
      · rw [hnew]
        exact ⟨hA2, hA3⟩
      · rw [hold k hk]
        obtain ⟨h1, h2⟩ := inv.heapWf k hk
        exact ⟨by omega, by rw [hA5 _ h1]; exact h2⟩

theorem BfsMid.foldl_neighbours {g : List (Int × List Int)} {s u : Int} (grow : Nat → Nat → Nat) :
    ∀ (ns' ns : List Int) (st : SearchState), (∀ n ∈ ns', n ∈ adj g u) →
      BfsMid g s u ns st → BfsMid g s u (ns ++ ns') (ns'.foldl (visit grow u) st) := by
  intro ns'
  induction ns' with
  | nil => intro ns st _ inv; simpa using inv
  | cons n ns' ih =>
    intro ns st hns inv
    have h1 := inv.step_neighbour grow n (hns n (List.mem_cons_self _ _))
    have h2 := ih (ns ++ [n]) _ (fun x hx => hns x (List.mem_cons_of_mem _ hx)) h1
    simpa using h2

theorem BfsMid.of_inv {g : List (Int × List Int)} {s u : Int} {q : List Int}
    {st : SearchState} (inv : BfsInv g s st) (hq : st.queue = u :: q) :
    BfsMid g s u [] { st with queue := q } := by
  have hsort := inv.sorted
  rw [hq] at hsort
  have hsort' := List.pairwise_cons.mp hsort
  have hmem : ∀ x ∈ q, x ∈ st.queue := fun x hx => by rw [hq]; exact List.mem_cons_of_mem _ hx
  have hu : u ∈ st.queue := by rw [hq]; exact List.mem_cons_self _ _
  refine
    { keys := inv.keys
      walk := inv.walk
      queued := fun k hk => inv.queued k (hmem k hk)
      sorted := hsort'.2
      level := fun x hx => ⟨hsort'.1 x hx, inv.close x (hmem x hx) u hu⟩
      uVisited := inv.queued u hu
      done := ?_
      uDirs := fun n hn => absurd hn (List.not_mem_nil n)
      start := inv.start
      heapWf := inv.heapWf }
  intro k hk hkq hku
  have hkq' : k ∉ st.queue := by
    rw [hq]
    intro h
    rcases List.mem_cons.mp h with h1 | h1
    · exact hku h1
    · exact hkq h1
  obtain ⟨h1, h2⟩ := inv.done k hk hkq'
  exact ⟨h1, h2 u hu⟩

theorem BfsMid.to_inv {g : List (Int × List Int)} {s u : Int} {st : SearchState}
    (inv : BfsMid g s u (adj g u) st) : BfsInv g s st := by
  refine
    { keys := inv.keys
      walk := inv.walk
      queued := inv.queued
      sorted := inv.sorted
      close := fun a ha b hb => by
        have h1 := (inv.level a ha).2
        have h2 := (inv.level b hb).1
        omega
      done := ?_
      start := inv.start
      heapWf := inv.heapWf }
  intro k hk hkq
  by_cases hku : k = u
  · subst hku
    exact ⟨inv.uDirs, fun x hx => (inv.level x hx).1⟩
  · obtain ⟨h1, h2⟩ := inv.done k hk hkq hku
    refine ⟨h1, fun x hx => ?_⟩
    have := (inv.level x hx).1
    omega

end Simulator

namespace Simulator

theorem mem_of_lookup {β : Type} (m : List (Int × β)) (k : Int) (v : β)
    (h : m.lookup k = some v) : (k, v) ∈ m := by
  induction m with
  | nil => simp at h
  | cons e m ih =>
    obtain ⟨a, b⟩ := e
    rw [lookup_cons_ite] at h
    by_cases hk : k = a
    · rw [if_pos hk] at h
      simp only [Option.some.injEq] at h
      rw [hk, h]
      exact List.mem_cons_self _ _
    · rw [if_neg hk] at h
      exact List.mem_cons_of_mem _ (ih h)

theorem adj_subset_listed (g : List (Int × List Int)) (u n : Int) (h : n ∈ adj g u) :
    n ∈ listed g := by
  unfold adj at h
  unfold listed
  rw [List.mem_toFinset, List.mem_flatMap]
  cases hl : g.lookup u with
  | none => rw [hl] at h; simp at h
  | some l =>
    rw [hl] at h
    exact ⟨(u, l), mem_of_lookup g u l hl, h⟩

theorem visit_measure (grow : Nat → Nat → Nat) (g : List (Int × List Int)) (u : Int)
    (st : SearchState) (n : Int) (hn : n ∈ listed g) :
    bfsMeasure g (visit grow u st n) = bfsMeasure g st := by
  by_cases hv : n ∈ st.visited
  · have hsame : visit grow u st n = st := by unfold visit; rw [if_pos hv]
    rw [hsame]
  · obtain ⟨hq, hvs, _, _⟩ := visit_of_not_mem grow u st n hv
    unfold bfsMeasure
    rw [hq, hvs, List.toFinset_cons, Finset.sdiff_insert, List.length_append,
      List.length_singleton]
    have hmem : n ∈ listed g \ st.visited.toFinset := by
      rw [Finset.mem_sdiff, List.mem_toFinset]
      exact ⟨hn, hv⟩
    rw [Finset.card_erase_of_mem hmem]
    have := Finset.card_pos.mpr ⟨_, hmem⟩
    omega

theorem foldl_visit_measure (grow : Nat → Nat → Nat) (g : List (Int × List Int)) (u : Int) :
    ∀ (ns : List Int) (st : SearchState), (∀ n ∈ ns, n ∈ listed g) →
      bfsMeasure g (ns.foldl (visit grow u) st) = bfsMeasure g st := by
  intro ns
  induction ns with
  | nil => intro st _; rfl
  | cons n ns ih =>
    intro st hns
    rw [List.foldl_cons, ih _ (fun x hx => hns x (List.mem_cons_of_mem _ hx)),
      visit_measure grow g u st n (hns n (List.mem_cons_self _ _))]

/-- The loop ends with an empty queue and the invariant, whenever the fuel exceeds the
measure. -/
theorem bfsLoop_spec (grow : Nat → Nat → Nat) (g : List (Int × List Int)) (s : Int) :
    ∀ (fuel : Nat) (st : SearchState), BfsInv g s st → bfsMeasure g st < fuel →
      ∃ st', bfsLoop grow g fuel st = some st' ∧ BfsInv g s st' ∧ st'.queue = [] := by
  intro fuel
  induction fuel with
  | zero => intro st _ h; omega
  | succ fuel ih =>
    intro st inv hfuel
    cases hq : st.queue with
    | nil =>
      refine ⟨st, ?_, inv, hq⟩
      simp only [bfsLoop, hq]
    | cons u q =>
      have hstep : bfsLoop grow g (fuel + 1) st =
          bfsLoop grow g fuel ((adj g u).foldl (visit grow u) { st with queue := q }) := by
        simp only [bfsLoop, hq]
      rw [hstep]
      have m0 : BfsMid g s u [] { st with queue := q } := BfsMid.of_inv inv hq
      have m1 := BfsMid.foldl_neighbours grow (adj g u) [] _ (fun n hn => hn) m0
      have hm := foldl_visit_measure grow g u (adj g u) { st with queue := q }
        (fun n hn => adj_subset_listed g u n hn)
      refine ih _ (BfsMid.to_inv (by simpa using m1)) ?_
      rw [hm]
      unfold bfsMeasure at hfuel ⊢
      rw [hq] at hfuel
      simp only [List.length_cons] at hfuel ⊢
      omega

theorem BfsInv.at_source (g : List (Int × List Int)) (s : Int) :
    BfsInv g s (initialState s) := by
  have hl : ∀ k, k ∈ [s] → lev (initialState s) k = 0 := by
    intro k hk
    rw [List.mem_singleton] at hk
    subst hk
    simp [lev, pathOf, initialState, lookup_cons_ite]
  have hp : ∀ k, k ∈ [s] → pathOf (initialState s) k = ⟨0, 0⟩ := by
    intro k hk
    rw [List.mem_singleton] at hk
    subst hk
    simp [pathOf, initialState, lookup_cons_ite]
  refine
    { keys := fun k => by
        simp only [initialState, List.mem_singleton, lookup_cons_ite, List.lookup_nil]
        by_cases hk : k = s
        · simp [hk]
        · simp [hk]
      walk := fun k hk => by
        rw [hl k hk, List.mem_singleton.mp hk]
        exact Walk.nil s
      queued := fun k hk => hk
      sorted := List.pairwise_singleton _ _
      close := fun a ha b hb => by rw [hl a ha, hl b hb]; omega
      done := fun k hk hkq => absurd hk hkq
      start := ⟨List.mem_singleton.mpr rfl, hl s (List.mem_singleton.mpr rfl)⟩
      heapWf := fun k hk => by rw [hp k hk]; simp [initialState] }

theorem length_flatMap_snd (g : List (Int × List Int)) :
    (g.flatMap (fun e => e.2)).length = (g.map (fun e => e.2.length)).sum := by
  induction g with
  | nil => rfl
  | cons e g ih => simp [List.flatMap_cons, ih]

theorem bfsMeasure_initial (g : List (Int × List Int)) (s : Int) :
    bfsMeasure g (initialState s) < bfsFuel g := by
  unfold bfsMeasure bfsFuel initialState
  have h1 : (listed g \ [s].toFinset).card ≤ (listed g).card :=
    Finset.card_le_card Finset.sdiff_subset
  have h2 : (listed g).card ≤ (g.flatMap (fun e => e.2)).length := List.toFinset_card_le _
  rw [length_flatMap_snd] at h2
  simp only [List.length_singleton]
  omega

/-- The function `BFS` returns, with the invariant and an empty queue. -/
theorem BFS_returns (grow : Nat → Nat → Nat) (g : List (Int × List Int)) (s : Int) :
    ∃ st, BFS grow g s = some st ∧ BfsInv g s st ∧ st.queue = [] :=
  bfsLoop_spec grow g s _ _ (BfsInv.at_source g s) (bfsMeasure_initial g s)

/-- At the end of the search every walk from the source ends in a visited node whose
path is no longer than the walk. -/
theorem BfsInv.walk_bound {g : List (Int × List Int)} {s : Int} {st : SearchState}
    (inv : BfsInv g s st) (hq : st.queue = []) {k : Int} {n : Nat} (w : Walk g s k n) :
    k ∈ st.visited ∧ lev st k ≤ n := by
  induction w with
  | nil => exact ⟨inv.start.1, by rw [inv.start.2]⟩
  | snoc _ e ih =>
    obtain ⟨h1, h2⟩ := ih
    obtain ⟨h3, h4⟩ := (inv.done _ h1 (by rw [hq]; exact List.not_mem_nil _)).1 _ e
    exact ⟨h3, by omega⟩

end Simulator

namespace Simulator

theorem distance_comm {F : Type} (ops : Float64Ops F)
    (hsq : ∀ a b, ops.pow2 (ops.sub a b) = ops.pow2 (ops.sub b a)) (p q : F × F) :
    distance ops p q = distance ops q p := by
  unfold distance
  rw [hsq p.1 q.1, hsq p.2 q.2]

theorem intOps_pow2_sub (a b : Int) :
    intOps.pow2 (intOps.sub a b) = intOps.pow2 (intOps.sub b a) := by
  show (a - b) * (a - b) = (b - a) * (b - a)
  ring

/-- C7. The ground station's matrix is symmetric in every state reachable from the
all-false matrix through `UpdateConnectivity` calls and arbitrary other updates; and in
the adjacency map the simulator's `UpdateConnectivity` builds from a position table, in
whatever orders the table is ranged over, `j` is listed under `i` exactly when `i` is
listed under `j`. Of float64 arithmetic only `math.Pow(a-b, 2) = math.Pow(b-a, 2)` is
used. -/
theorem connectivity_symmetric :
    (∀ gs : Station.GroundStation, Station.Reachable gs →
      ∀ i j, i ≤ gs.TotalDrones → j ≤ gs.TotalDrones → gs.Graph i j = gs.Graph j i) ∧
    (∀ (F : Type) (ops : Float64Ops F) (drones outer : List (Int × (F × F)))
      (inner : Int → List (Int × (F × F))),
      (∀ a b, ops.pow2 (ops.sub a b) = ops.pow2 (ops.sub b a)) →
      outer.Perm drones → (∀ k, (inner k).Perm drones) →
      ∀ i j, j ∈ adj (buildGraph ops outer inner) i ↔
        i ∈ adj (buildGraph ops outer inner) j) := by
  refine ⟨fun gs h i j _ _ => (Station.Reachable.symm_diag h).1 i j, ?_⟩
  intro F ops drones outer inner hsq houter hinner i j
  rw [mem_adj_buildGraph ops drones outer inner houter hinner,
    mem_adj_buildGraph ops drones outer inner houter hinner]
  constructor
  · rintro ⟨p, q, h1, h2, hne, hn⟩
    exact ⟨q, p, h2, h1, hne.symm, by rw [distance_comm ops hsq]; exact hn⟩
  · rintro ⟨p, q, h1, h2, hne, hn⟩
    exact ⟨q, p, h2, h1, hne.symm, by rw [distance_comm ops hsq]; exact hn⟩

/-- Instance of C7: a fresh station after one update, and three drones ranged over in
two different orders. -/
theorem connectivity_symmetric_witness :
    (Station.UpdateConnectivity Station.stationFresh).2.Graph 1 2 =
      (Station.UpdateConnectivity Station.stationFresh).2.Graph 2 1 ∧
    ((1 : Int) ∈ adj (buildGraph intOps threeDrones (fun _ => threeDrones.reverse)) 0 ↔
      (0 : Int) ∈ adj (buildGraph intOps threeDrones (fun _ => threeDrones.reverse)) 1) :=
  ⟨connectivity_symmetric.1 _
      (Station.Reachable.update _ (Station.Reachable.init _ (fun _ _ => rfl))) 1 2
      (by decide) (by decide),
    connectivity_symmetric.2 _ intOps threeDrones threeDrones (fun _ => threeDrones.reverse)
      intOps_pow2_sub (List.Perm.refl _) (fun _ => List.reverse_perm _) 0 1⟩

theorem pathTo_eq (st : SearchState) (k : Int) :
    pathTo st k = (st.paths.lookup k).map (readSlice st.heap) := rfl

/-- C8. `BFS` returns for every adjacency map, growth policy of `append` and source; the
returned map has an entry for `k` exactly when a walk leads from the source to `k`; the
length of `paths[k]` is the length of some walk to `k` and of no longer than any walk to
`k` (the hop distance), the source's path being empty; and on the line graph `0-1-2-3`
from source 0, `paths[3] = [0,1,2]`. -/
theorem BFS_path_length_is_hop_distance (grow : Nat → Nat → Nat) (g : List (Int × List Int))
    (s : Int) :
    (∃ st, BFS grow g s = some st ∧ pathTo st s = some [] ∧
      ∀ k, ((pathTo st k).isSome = true ↔ ∃ n, Walk g s k n) ∧
        ∀ path, pathTo st k = some path →
          Walk g s k path.length ∧ ∀ n, Walk g s k n → path.length ≤ n) ∧
    (BFS goGrow lineGraph 0).bind (fun st => pathTo st 3) = some [0, 1, 2] := by
  refine ⟨?_, by decide⟩
  obtain ⟨st, hst, inv, hq⟩ := BFS_returns grow g s
  have hlen : ∀ k sl, st.paths.lookup k = some sl →
      k ∈ st.visited ∧ (readSlice st.heap sl).length = lev st k := by
    intro k sl hsl
    have hk : k ∈ st.visited := (inv.keys k).mpr (by rw [hsl]; rfl)
    have hp : pathOf st k = sl := by unfold pathOf; rw [hsl]; rfl
    have hw := (inv.heapWf k hk).2
    rw [hp] at hw
    refine ⟨hk, ?_⟩
    unfold readSlice lev
    rw [hp, List.length_take]
    omega
  refine ⟨st, hst, ?_, fun k => ⟨?_, ?_⟩⟩
  · obtain ⟨sl, hsl⟩ := Option.isSome_iff_exists.mp ((inv.keys s).mp inv.start.1)
    have h := (hlen s sl hsl).2
    rw [inv.start.2] at h
    rw [pathTo_eq, hsl]
    simp only [Option.map_some', Option.some.injEq]
    exact List.length_eq_zero.mp h
  · rw [pathTo_eq, Option.isSome_map', ← inv.keys k]
    constructor
    · intro hk
      exact ⟨_, inv.walk k hk⟩
    · rintro ⟨n, w⟩
      exact (inv.walk_bound hq w).1
  · intro path hpath
    rw [pathTo_eq] at hpath
    cases hsl : st.paths.lookup k with
    | none => rw [hsl] at hpath; simp at hpath
    | some sl =>
      rw [hsl] at hpath
      simp only [Option.map_some', Option.some.injEq] at hpath
      obtain ⟨hk, hl⟩ := hlen k sl hsl
      rw [← hpath, hl]
      exact ⟨inv.walk k hk, fun n w => (inv.walk_bound hq w).2⟩

/-- C9 (evaluation at the failing input). On `forkGraph` from source 0, with the
capacities the Go runtime gives `append`, the path returned for node 8 ends in 7, which
is not a neighbour of 8: the entry written for node 8 (`[0,1,2,3,4,5,6]`) was
overwritten in the shared backing array when node 9 got its path. -/
theorem BFS_forkGraph_path_overwritten :
    (BFS goGrow forkGraph 0).bind (fun st => pathTo st 8) = some [0, 1, 2, 3, 4, 5, 7] ∧
    (8 : Int) ∉ adj forkGraph 7 ∧
    isHopSequence forkGraph 0 8 [0, 1, 2, 3, 4, 5, 7] = false ∧
    isHopSequence forkGraph 0 8 [0, 1, 2, 3, 4, 5, 6] = true ∧
    (BFS goGrow forkGraph 0).bind (fun st => pathTo st 9) = some [0, 1, 2, 3, 4, 5, 7] := by
  decide

end Simulator

